import Mathlib

/-!
Verification of the `pcsets` package (pitch class sets for Python, v2.0.2).

The development shallowly embeds the core data model of `pcsets/pcset.py`
and the relational operators of `pcsets/pcops.py`.  A `PcSet` value is
represented by its `definition` list: a list of naturals in `0..11` with
no duplicates, in insertion order.  Every method that constructs a new
`PcSet` from computed integers is modelled by passing the computed values
through `mkNat`, which mirrors the Python constructor's behaviour on a
list of integers (`moderate` each entry, i.e. reduce mod 12, then drop
duplicates keeping the first occurrence).
-/

namespace Pcsets

/-- First-occurrence duplicate removal, as the loop at the end of
`PcSet.__init__`: fold over the entries, appending each entry that is
not yet present. -/
def pydedup (l : List Nat) : List Nat :=
  l.foldl (fun acc note => if note ∈ acc then acc else acc ++ [note]) []

/-- `moderate` (pcset.py) on an integer input: `int(x) % 12`, with the
Python `%` (sign of the divisor), hence a value in `0..11`. -/
def moderate (x : Int) : Nat :=
  (x % 12).toNat

/-- The `PcSet` constructor applied to a list of integers: `moderate`
every entry, then remove duplicates keeping first occurrences. -/
def mkInt (l : List Int) : List Nat :=
  pydedup (l.map moderate)

/-- The `PcSet` constructor applied to a list of already-reduced pitch
classes (naturals).  `moderate` on a natural is `· % 12`. -/
def mkNat (l : List Nat) : List Nat :=
  pydedup (l.map (· % 12))

/-- The element formula of `PcSet.transpose(n)`: `(note + n) % 12`,
with the Python `%` (sign of the divisor), hence a value in `0..11`
for any integer `n`. -/
def res (n : Int) (e : Nat) : Nat :=
  (((e : Int) + n) % 12).toNat

/-- The element formula of `PcSet.invert`: `(12 - note) % 12`. -/
def ires (e : Nat) : Nat :=
  ((12 - (e : Int)) % 12).toNat

/-- The comprehension `[(note + n) % 12 for note in self]` inside
`PcSet.transpose`. -/
def tmap (n : Int) (s : List Nat) : List Nat :=
  s.map (res n)

/-- The comprehension `[(12 - note) % 12 for note in self]` inside
`PcSet.invert`. -/
def imap (s : List Nat) : List Nat :=
  s.map ires

/-- `PcSet.invert`: the inverted elements are passed to the `PcSet`
constructor. -/
def invert (s : List Nat) : List Nat :=
  mkNat (imap s)

/-- `PcSet.transpose(n)`: the transposed elements are passed to the
`PcSet` constructor. -/
def transpose (s : List Nat) (n : Int) : List Nat :=
  mkNat (tmap n s)

/-- `PcSet.TnI(n)`: inversion followed by transposition by `n`. -/
def TnI (s : List Nat) (n : Int) : List Nat :=
  transpose (invert s) n

/-- `PcSet.complement`: the notes in `range(12)` not present in the set,
in ascending order, passed to the constructor. -/
def complement (s : List Nat) : List Nat :=
  mkNat ((List.range 12).filter (fun note => !(note ∈ s : Bool)))

/-- `PcSet.reverse`: the elements reversed, passed to the constructor. -/
def reversePc (s : List Nat) : List Nat :=
  mkNat s.reverse

/-- `PcSet.sort`: `sorted(self)`, passed to the constructor. -/
def sortPc (s : List Nat) : List Nat :=
  mkNat (List.insertionSort (· ≤ ·) s)

/-- One step of the rotation loop in `PcSet.shift`:
`copy.insert(0, copy.pop())`, i.e. move the last element to the front. -/
def rotateRightOnce (l : List Nat) : List Nat :=
  match l.getLast? with
  | none => l
  | some last => last :: l.dropLast

/-- `PcSet.shift(n)`: for a set of size `> 1`, rotate right by
`int(n) % size` positions (the Python `%`, so a natural number of
steps); otherwise return a copy.  The result goes through the
constructor (`PcSet(copy)`). -/
def shift (s : List Nat) (n : Int) : List Nat :=
  if s.length > 1 then
    mkNat (rotateRightOnce^[(n % (s.length : Int)).toNat] s)
  else
    mkNat s

/-- `PcSet.zero`: transpose by the negation of the first element; the
empty set (an `IndexError` in the source) returns a fresh copy. -/
def zero (s : List Nat) : List Nat :=
  match s with
  | [] => mkNat s
  | a :: _ => transpose s (-(a : Int))

/-- `binaryvalue` (pcset.py): fold the list, adding `2 ** bit` for every
element. -/
def binaryvalue (i : List Nat) : Nat :=
  i.foldl (fun value bit => value + 2 ^ bit) 0

/-- `PcSet.normal`: sort ascending, build the `size` rotations
`shift(0) .. shift(size-1)`, take the last rotation (`rotations.pop()`)
as the initial candidate and fold over the remaining rotations keeping
the arrangement with the strictly smaller `binaryvalue` of its zeroed
form.  Sets of size `< 2` return a fresh copy. -/
def normal (s : List Nat) : List Nat :=
  if s.length < 2 then mkNat s
  else
    let original := sortPc s
    let rotations := (List.range s.length).map (fun n => shift original (Int.ofNat n))
    rotations.dropLast.foldl
      (fun best arrangement =>
        if binaryvalue (zero arrangement) < binaryvalue (zero best) then arrangement else best)
      (rotations.getLastD [])

/-- `PcSet.reduced`: `normal()` followed by `zero()`. -/
def reduced (s : List Nat) : List Nat :=
  zero (normal s)

/-- `PcSet.prime`: the reduced form of the set and of its inversion,
keeping whichever has the smaller `binaryvalue`. -/
def prime (s : List Nat) : List Nat :=
  let original := zero (normal s)
  let inverted := zero (normal (invert s))
  if binaryvalue original < binaryvalue inverted then original else inverted

/-- `PcSet.cvec`: tally `(x + y) % 12` over all ordered pairs of
elements (the `rawtable`), then record, for each residue in `0..11`,
how many times it occurs.  The source adds `rawtable.count(value)` to a
zero vector for every distinct entry `value`, which yields exactly the
per-residue occurrence counts. -/
def cvec (s : List Nat) : List Nat :=
  let rawtable := (s.map (fun x => s.map (fun y => (x + y) % 12))).flatten
  (List.range 12).map (fun value => rawtable.count value)

/-- `PcSet.__str__`: each element renders as its digit for `0..9`, `A`
for 10 and `B` for 11, concatenated in current order. -/
def strPc (s : List Nat) : List Char :=
  s.map (fun x => if x < 10 then Nat.digitChar x else if x = 10 then 'A' else 'B')

/-! Embedding of `pcsets/pcops.py`. -/

/-- `exact_equality` (pcops.py): equality of the element sequences. -/
def exact_equality (a b : List Nat) : Bool :=
  a == b

/-- `set_equality` (pcops.py): equality as unordered sets, i.e. the two
lists have the same members. -/
def set_equality (a b : List Nat) : Bool :=
  a.all (· ∈ b) && b.all (· ∈ a)

/-- `same_prime` (pcops.py): the prime forms are exactly equal. -/
def same_prime (a b : List Nat) : Bool :=
  exact_equality (prime a) (prime b)

/-- The result stored by an `OpSet`: the lists of values `n` in `0..11`
for which the tested relation holds on the `Tn` branch and on the `TnI`
branch. -/
structure OpSetResult where
  Tn : List Nat
  TnI : List Nat
deriving DecidableEq, Repr

/-- The boolean `any` property of an `OpSet`: true unless both branches
are empty. -/
def OpSetResult.anyMatch (r : OpSetResult) : Bool :=
  !(r.Tn == [] && r.TnI == [])

/-- `OpSet.__init__` with the default `normal` polarity: for each mode
and each `n` in `range(12)`, test `relation(a.T(n), b)` respectively
`relation(a.TnI(n), b)` and collect the matching `n` in order. -/
def opSet (relation : List Nat → List Nat → Bool) (ao bo : List Nat) : OpSetResult :=
  { Tn := (List.range 12).filter (fun n => relation (transpose ao (Int.ofNat n)) bo)
    TnI := (List.range 12).filter (fun n => relation (TnI ao (Int.ofNat n)) bo) }

/-- `OpSet.__init__` with `reverse` polarity: set `b` is varied instead
of set `a`. -/
def opSetReverse (relation : List Nat → List Nat → Bool) (ao bo : List Nat) : OpSetResult :=
  { Tn := (List.range 12).filter (fun n => relation ao (transpose bo (Int.ofNat n)))
    TnI := (List.range 12).filter (fun n => relation ao (TnI bo (Int.ofNat n))) }

/-- `NullOpSet`: the result used when no match can possibly be found. -/
def nullOpSet : OpSetResult :=
  { Tn := [], TnI := [] }

/-- `op_path` (pcops.py): if the prime forms differ, return the null
result without searching; otherwise run the 24-way search with
`set_equality` as the relation. -/
def op_path (a b : List Nat) : OpSetResult :=
  if same_prime a b then opSet set_equality a b else nullOpSet

/-- `symmetry` (pcops.py): the number of entries of `cvec` equal to the
cardinality of the set. -/
def symmetry (a : List Nat) : Nat :=
  (cvec a).count a.length

/-- `subset_of` (pcops.py): every element of `b` is an element of `a`. -/
def subset_of (a b : List Nat) : Bool :=
  b.all (· ∈ a)

/-- `fit_in` (pcops.py): if `a` is smaller than `b` return the null
result; otherwise search with `subset_of` in `reverse` polarity, so the
branches hold the `n` for which `b.T(n)` (resp. `b.TnI(n)`) is a subset
of `a`. -/
def fit_in (a b : List Nat) : OpSetResult :=
  if a.length < b.length then nullOpSet
  else opSetReverse subset_of a b

/-! Model of the constructor's dynamic input and its error behaviour
(`PcSet.__init__`, `moderate`, and the `DefinitionError` hierarchy). -/

/-- The `DefinitionError` subclasses raised during construction. -/
inductive PcDefError where
  | illegalCharacter (c : Char)
  | nonIterableDef
deriving DecidableEq, Repr

/-- A token of an iterable constructor argument: an integer, a float
(modelled as a rational), or a character. -/
inductive PyToken where
  | int (n : Int)
  | rat (q : Rat)
  | ch (c : Char)
deriving DecidableEq

/-- A constructor argument: a specification string (a list of its
characters), a list of tokens, or a non-iterable value. -/
inductive PyDef where
  | ofString (s : List Char)
  | ofList (l : List PyToken)
  | nonIterable
deriving DecidableEq

/-- Python `int()` on a rational (float): truncation toward zero. -/
def intOfRat (q : Rat) : Int :=
  if 0 ≤ q then q.floor else q.ceil

/-- `moderate` (pcset.py) on a character token: `int(ch)` succeeds for
the digits `0..9`; `A` and `B` denote 10 and 11; anything else raises
`IllegalCharacter`. -/
def moderateChar (c : Char) : Except PcDefError Nat :=
  if c.isDigit then .ok ((c.toNat - 48) % 12)
  else if c = 'A' then .ok 10
  else if c = 'B' then .ok 11
  else .error (.illegalCharacter c)

/-- `moderate` (pcset.py) on a token: integers and floats convert via
`int(x) % 12`; characters go through `moderateChar`. -/
def moderateToken : PyToken → Except PcDefError Nat
  | .int n => .ok (moderate n)
  | .rat q => .ok ((intOfRat q % 12).toNat)
  | .ch c => moderateChar c

/-- The comprehension `[moderate(note) for note in list(definition)]`:
moderate every token in order, stopping at the first failure. -/
def moderateAll : List PyToken → Except PcDefError (List Nat)
  | [] => .ok []
  | t :: ts =>
    match moderateToken t with
    | .error e => .error e
    | .ok n =>
      match moderateAll ts with
      | .error e => .error e
      | .ok ns => .ok (n :: ns)

/-- `PcSet.__init__` over the dynamic input model: a non-iterable
raises `NonIterableDef`; a string is the list of its characters; the
moderated entries then lose their duplicates. -/
def mkE : PyDef → Except PcDefError (List Nat)
  | .nonIterable => .error .nonIterableDef
  | .ofString cs =>
    match moderateAll (cs.map PyToken.ch) with
    | .error e => .error e
    | .ok ns => .ok (pydedup ns)
  | .ofList l =>
    match moderateAll l with
    | .error e => .error e
    | .ok ns => .ok (pydedup ns)

/-- Convenience: the `PcSet` defined by a specification string (legal
strings only; a failing construction collapses to the empty list). -/
def pcs (str : String) : List Nat :=
  ((mkE (PyDef.ofString str.toList)).toOption).getD []

/-! Model of `transpose` applied to a non-integer (float) amount,
with floats modelled as rationals.  In the source, `(note + n) % 12`
is evaluated in float arithmetic (the Python float `%` returns a value
in `[0, 12)`), and the constructor then applies `int()` (truncation
toward zero) and `% 12` to each entry. -/

/-- The Python float `%` for a positive divisor: `x - y * floor(x / y)`. -/
def pyFloatMod (x y : Rat) : Rat :=
  x - y * ((x / y).floor : Int)

/-- `moderate` on a float value: `int(x) % 12` as a pitch class. -/
def moderateRat (x : Rat) : Nat :=
  (intOfRat x % 12).toNat

/-- `PcSet.transpose(n)` for a rational (float) `n`: each element maps
to the float `(note + n) % 12`, and the constructor moderates the
resulting values. -/
def transposeRat (s : List Nat) (q : Rat) : List Nat :=
  pydedup (s.map (fun note : Nat => moderateRat (pyFloatMod ((note : Rat) + q) 12)))

/-! Specification-side definitions used to state the claims. -/

/-- A well-formed `PcSet` definition list: all elements are pitch
classes in `0..11` and there are no duplicates.  This is the invariant
established by the constructor. -/
def ValidPcs (s : List Nat) : Prop :=
  (∀ e ∈ s, e < 12) ∧ s.Nodup

instance : DecidablePred ValidPcs := fun _s =>
  inferInstanceAs (Decidable (And _ _))

/-- Equality as unordered sets: the two lists have the same members. -/
def SetEq (u v : List Nat) : Prop :=
  ∀ e : Nat, e ∈ u ↔ e ∈ v

/-- The sets reachable from `a` by composing transpositions and
inversions in any order. -/
inductive TIReachable (a : List Nat) : List Nat → Prop where
  | refl : TIReachable a a
  | transposeStep (c : List Nat) (n : Int) :
      TIReachable a c → TIReachable a (transpose c n)
  | invertStep (c : List Nat) :
      TIReachable a c → TIReachable a (invert c)

/-- The first element of `l` attaining the minimum of `f` over `l`. -/
def firstMinBy (f : List Nat → Nat) (l : List (List Nat)) : Option (List Nat) :=
  l.find? (fun x => l.all (fun y => f x ≤ f y))

/-- A token that `moderate` rejects: neither convertible to an integer
(an `int`, a float, or a digit character) nor the character `A` or `B`. -/
def badToken : PyToken → Bool
  | .int _ => false
  | .rat _ => false
  | .ch c => !(c.isDigit || c = 'A' || c = 'B')

/-- A constructor argument on which construction raises a
`DefinitionError`: a non-iterable value, or an iterable containing a
rejected token. -/
def badDef : PyDef → Prop
  | .nonIterable => True
  | .ofString cs => ∃ c ∈ cs, badToken (.ch c) = true
  | .ofList l => ∃ t ∈ l, badToken t = true

/-! Basic lemmas about `pydedup` and the constructor. -/

theorem pydedup_go_mem (l : List Nat) : ∀ (acc : List Nat) (e : Nat),
    (e ∈ l.foldl (fun acc note => if note ∈ acc then acc else acc ++ [note]) acc) ↔
      e ∈ acc ∨ e ∈ l := by
  induction l with
  | nil => simp
  | cons a t ih =>
    intro acc e
    simp only [List.foldl_cons]
    by_cases h : a ∈ acc
    · simp only [h, if_pos, ih, List.mem_cons]
      constructor
      · rintro (he | he) <;> tauto
      · rintro (he | rfl | he) <;> tauto
    · simp only [h, if_neg, not_false_iff, ih, List.mem_append, List.mem_singleton,
        List.mem_cons]
      tauto

theorem pydedup_mem {l : List Nat} {e : Nat} : e ∈ pydedup l ↔ e ∈ l := by
  unfold pydedup
  rw [pydedup_go_mem]
  simp

theorem pydedup_go_nodup (l : List Nat) : ∀ acc : List Nat, acc.Nodup →
    (l.foldl (fun acc note => if note ∈ acc then acc else acc ++ [note]) acc).Nodup := by
  induction l with
  | nil => intro acc h; simpa using h
  | cons a t ih =>
    intro acc h
    simp only [List.foldl_cons]
    by_cases ha : a ∈ acc
    · simp only [ha, if_pos]
      exact ih acc h
    · simp only [ha, if_neg, not_false_iff]
      refine ih _ ?_
      simp [List.nodup_append, h, ha]

theorem pydedup_nodup (l : List Nat) : (pydedup l).Nodup :=
  pydedup_go_nodup l [] List.nodup_nil

theorem pydedup_go_eq (l : List Nat) : ∀ acc : List Nat, (acc ++ l).Nodup →
    l.foldl (fun acc note => if note ∈ acc then acc else acc ++ [note]) acc = acc ++ l := by
  induction l with
  | nil => intro acc _; simp
  | cons a t ih =>
    intro acc h
    have hrearr : acc ++ a :: t = (acc ++ [a]) ++ t := by simp
    have ha : a ∉ acc := by
      intro hmem
      rw [hrearr] at h
      rcases List.nodup_append.mp h with ⟨h1, _, _⟩
      exact (List.nodup_append.mp h1).2.2 hmem (List.mem_singleton.mpr rfl)
    simp only [List.foldl_cons, ha, if_neg, not_false_iff]
    rw [ih (acc ++ [a]) (by rwa [hrearr] at h)]
    simp

theorem pydedup_eq_self {l : List Nat} (h : l.Nodup) : pydedup l = l :=
  pydedup_go_eq l [] (by simpa using h)

theorem pydedup_valid {l : List Nat} (h : ∀ e ∈ l, e < 12) : ValidPcs (pydedup l) :=
  ⟨fun e he => h e (pydedup_mem.mp he), pydedup_nodup l⟩

theorem map_mod_eq_self {l : List Nat} (h : ∀ e ∈ l, e < 12) : l.map (· % 12) = l := by
  rw [show l = l.map id by simp]
  rw [List.map_map]
  exact List.map_congr_left (fun e he => Nat.mod_eq_of_lt (h e (by simpa using he)))

theorem mkNat_eq_pydedup {l : List Nat} (h : ∀ e ∈ l, e < 12) : mkNat l = pydedup l := by
  rw [mkNat, map_mod_eq_self h]

theorem mkNat_valid (l : List Nat) : ValidPcs (mkNat l) := by
  refine pydedup_valid ?_
  intro e he
  rcases List.mem_map.mp he with ⟨x, _, rfl⟩
  exact Nat.mod_lt _ (by norm_num)

theorem mkNat_eq_self {l : List Nat} (h : ValidPcs l) : mkNat l = l := by
  rw [mkNat_eq_pydedup h.1, pydedup_eq_self h.2]

theorem mkNat_mem {l : List Nat} (h : ∀ e ∈ l, e < 12) {e : Nat} :
    e ∈ mkNat l ↔ e ∈ l := by
  rw [mkNat_eq_pydedup h, pydedup_mem]

/-! Lemmas about the single-element actions `res` and `ires`. -/

theorem res_lt (n : Int) (e : Nat) : res n e < 12 := by
  unfold res
  have h1 := Int.emod_nonneg ((e : Int) + n) (by norm_num : (12 : Int) ≠ 0)
  have h2 := Int.emod_lt_of_pos ((e : Int) + n) (by norm_num : (0 : Int) < 12)
  omega

theorem res_cast (n : Int) (e : Nat) : ((res n e : Nat) : Int) = ((e : Int) + n) % 12 := by
  unfold res
  have h1 := Int.emod_nonneg ((e : Int) + n) (by norm_num : (12 : Int) ≠ 0)
  omega

theorem ires_lt (e : Nat) : ires e < 12 := by
  unfold ires
  have h1 := Int.emod_nonneg (12 - (e : Int)) (by norm_num : (12 : Int) ≠ 0)
  have h2 := Int.emod_lt_of_pos (12 - (e : Int)) (by norm_num : (0 : Int) < 12)
  omega

theorem ires_cast (e : Nat) : ((ires e : Nat) : Int) = (12 - (e : Int)) % 12 := by
  unfold ires
  have h1 := Int.emod_nonneg (12 - (e : Int)) (by norm_num : (12 : Int) ≠ 0)
  omega

theorem res_res (n m : Int) (e : Nat) : res m (res n e) = res (n + m) e := by
  have h1 := res_cast n e
  have h2 := res_cast m (res n e)
  have h3 := res_cast (n + m) e
  omega

theorem res_zero {e : Nat} (h : e < 12) : res 0 e = e := by
  have h1 := res_cast 0 e
  omega

theorem res_inj {n : Int} {e f : Nat} (he : e < 12) (hf : f < 12)
    (h : res n e = res n f) : e = f := by
  have h1 := res_cast n e
  have h2 := res_cast n f
  rw [h] at h1
  omega

theorem ires_ires {e : Nat} (h : e < 12) : ires (ires e) = e := by
  have h1 := ires_cast e
  have h2 := ires_cast (ires e)
  omega

theorem ires_inj {e f : Nat} (he : e < 12) (hf : f < 12)
    (h : ires e = ires f) : e = f := by
  have h1 := ires_cast e
  have h2 := ires_cast f
  rw [h] at h1
  omega

theorem ires_res (n : Int) (e : Nat) : ires (res n e) = res (-n) (ires e) := by
  have h1 := res_cast n e
  have h2 := ires_cast (res n e)
  have h3 := ires_cast e
  have h4 := res_cast (-n) (ires e)
  omega

theorem res_emod (n : Int) (e : Nat) : res (n % 12) e = res n e := by
  have h1 := res_cast (n % 12) e
  have h2 := res_cast n e
  omega

/-! Lemmas about the list-level maps `tmap` and `imap`, and the
operations `transpose` and `invert`. -/

theorem tmap_lt (n : Int) (s : List Nat) : ∀ e ∈ tmap n s, e < 12 := by
  intro e he
  rcases List.mem_map.mp he with ⟨x, _, rfl⟩
  exact res_lt n x

theorem imap_lt (s : List Nat) : ∀ e ∈ imap s, e < 12 := by
  intro e he
  rcases List.mem_map.mp he with ⟨x, _, rfl⟩
  exact ires_lt x

theorem tmap_valid {s : List Nat} (hs : ValidPcs s) (n : Int) : ValidPcs (tmap n s) :=
  ⟨tmap_lt n s, hs.2.map_on (fun x hx y hy hxy => res_inj (hs.1 x hx) (hs.1 y hy) hxy)⟩

theorem imap_valid {s : List Nat} (hs : ValidPcs s) : ValidPcs (imap s) :=
  ⟨imap_lt s, hs.2.map_on (fun x hx y hy hxy => ires_inj (hs.1 x hx) (hs.1 y hy) hxy)⟩

theorem transpose_eq_tmap {s : List Nat} (hs : ValidPcs s) (n : Int) :
    transpose s n = tmap n s :=
  mkNat_eq_self (tmap_valid hs n)

theorem invert_eq_imap {s : List Nat} (hs : ValidPcs s) :
    invert s = imap s :=
  mkNat_eq_self (imap_valid hs)

theorem transpose_valid (s : List Nat) (n : Int) : ValidPcs (transpose s n) :=
  mkNat_valid _

theorem invert_valid (s : List Nat) : ValidPcs (invert s) :=
  mkNat_valid _

theorem length_transpose {s : List Nat} (hs : ValidPcs s) (n : Int) :
    (transpose s n).length = s.length := by
  rw [transpose_eq_tmap hs]
  exact List.length_map s (res n)

theorem length_invert {s : List Nat} (hs : ValidPcs s) :
    (invert s).length = s.length := by
  rw [invert_eq_imap hs]
  exact List.length_map s ires

theorem mem_tmap_iff {s : List Nat} (hs : ∀ x ∈ s, x < 12) {n : Int} {e : Nat} :
    e ∈ tmap n s ↔ e < 12 ∧ res (-n) e ∈ s := by
  constructor
  · intro he
    rcases List.mem_map.mp he with ⟨x, hx, rfl⟩
    refine ⟨res_lt n x, ?_⟩
    rw [res_res]
    simpa [res_zero (hs x hx)] using hx
  · rintro ⟨he, hmem⟩
    refine List.mem_map.mpr ⟨res (-n) e, hmem, ?_⟩
    rw [res_res]
    simp [res_zero he]

theorem mem_imap_iff {s : List Nat} (hs : ∀ x ∈ s, x < 12) {e : Nat} :
    e ∈ imap s ↔ e < 12 ∧ ires e ∈ s := by
  constructor
  · intro he
    rcases List.mem_map.mp he with ⟨x, hx, rfl⟩
    refine ⟨ires_lt x, ?_⟩
    rwa [ires_ires (hs x hx)]
  · rintro ⟨he, hmem⟩
    exact List.mem_map.mpr ⟨ires e, hmem, ires_ires he⟩

theorem transpose_transpose {s : List Nat} (hs : ValidPcs s) (n m : Int) :
    transpose (transpose s n) m = transpose s (n + m) := by
  rw [transpose_eq_tmap hs n, transpose_eq_tmap (tmap_valid hs n) m,
    transpose_eq_tmap hs (n + m)]
  unfold tmap
  rw [List.map_map]
  exact List.map_congr_left (fun e _ => res_res n m e)

theorem invert_transpose {s : List Nat} (hs : ValidPcs s) (n : Int) :
    invert (transpose s n) = transpose (invert s) (-n) := by
  rw [transpose_eq_tmap hs n, invert_eq_imap (tmap_valid hs n),
    invert_eq_imap hs, transpose_eq_tmap (imap_valid hs) (-n)]
  unfold tmap imap
  rw [List.map_map, List.map_map]
  exact List.map_congr_left (fun e _ => ires_res n e)

theorem invert_invert {s : List Nat} (hs : ValidPcs s) :
    invert (invert s) = s := by
  rw [invert_eq_imap hs, invert_eq_imap (imap_valid hs)]
  unfold imap
  rw [List.map_map]
  rw [show s = s.map id by simp]
  rw [List.map_map]
  exact List.map_congr_left (fun e he => ires_ires (hs.1 e (by simpa using he)))

theorem transpose_zero_eq {s : List Nat} (hs : ValidPcs s) :
    transpose s 0 = s := by
  rw [transpose_eq_tmap hs 0]
  unfold tmap
  rw [show s = s.map id by simp]
  rw [List.map_map]
  exact List.map_congr_left (fun e he => res_zero (hs.1 e (by simpa using he)))

theorem transpose_emod {s : List Nat} (n : Int) :
    transpose s (n % 12) = transpose s n := by
  unfold transpose tmap
  congr 1
  exact List.map_congr_left (fun e _ => res_emod n e)

/-! Lemmas about set equality. -/

theorem set_equality_iff {a b : List Nat} : set_equality a b = true ↔ SetEq a b := by
  unfold set_equality SetEq
  simp only [Bool.and_eq_true, List.all_eq_true, decide_eq_true_eq]
  constructor
  · rintro ⟨h1, h2⟩ e
    exact ⟨fun he => h1 e he, fun he => h2 e he⟩
  · intro h
    exact ⟨fun e he => (h e).mp he, fun e he => (h e).mpr he⟩

theorem SetEq.refl (a : List Nat) : SetEq a a := fun _ => Iff.rfl

theorem SetEq.symm {a b : List Nat} (h : SetEq a b) : SetEq b a :=
  fun e => (h e).symm

theorem SetEq.trans {a b c : List Nat} (h1 : SetEq a b) (h2 : SetEq b c) : SetEq a c :=
  fun e => (h1 e).trans (h2 e)

theorem SetEq.perm {a b : List Nat} (ha : a.Nodup) (hb : b.Nodup) (h : SetEq a b) :
    a.Perm b :=
  (List.perm_ext_iff_of_nodup ha hb).mpr h

theorem SetEq.length_eq {a b : List Nat} (ha : a.Nodup) (hb : b.Nodup) (h : SetEq a b) :
    a.length = b.length :=
  (h.perm ha hb).length_eq

theorem SetEq.transpose {a b : List Nat} (ha : ValidPcs a) (hb : ValidPcs b)
    (h : SetEq a b) (n : Int) : SetEq (transpose a n) (transpose b n) := by
  intro e
  rw [transpose_eq_tmap ha, transpose_eq_tmap hb, mem_tmap_iff ha.1, mem_tmap_iff hb.1]
  rw [h (res (-n) e)]

theorem SetEq.invert {a b : List Nat} (ha : ValidPcs a) (hb : ValidPcs b)
    (h : SetEq a b) : SetEq (invert a) (invert b) := by
  intro e
  rw [invert_eq_imap ha, invert_eq_imap hb, mem_imap_iff ha.1, mem_imap_iff hb.1]
  rw [h (ires e)]

theorem setEq_transpose_shift {a b : List Nat} (ha : ValidPcs a) (hb : ValidPcs b)
    (n : Int) (h : SetEq (transpose a n) b) : SetEq a (transpose b (-n)) := by
  have h2 := h.transpose (transpose_valid a n) hb (-n)
  rwa [transpose_transpose ha n (-n), add_neg_cancel, transpose_zero_eq ha] at h2

/-! The sorted form: `sortPc` of a valid set is the ascending list of
its members below 12. -/

theorem sortPc_valid (s : List Nat) : ValidPcs (sortPc s) :=
  mkNat_valid _

theorem insertionSort_eq_sortPc {s : List Nat} (hs : ValidPcs s) :
    sortPc s = List.insertionSort (· ≤ ·) s := by
  unfold sortPc
  refine mkNat_eq_self ⟨?_, ?_⟩
  · intro e he
    exact hs.1 e ((List.perm_insertionSort (· ≤ ·) s).mem_iff.mp he)
  · exact hs.2.perm (List.perm_insertionSort (· ≤ ·) s).symm

theorem sortPc_perm {s : List Nat} (hs : ValidPcs s) : (sortPc s).Perm s := by
  rw [insertionSort_eq_sortPc hs]
  exact List.perm_insertionSort (· ≤ ·) s

theorem sortPc_setEq {s : List Nat} (hs : ValidPcs s) : SetEq (sortPc s) s :=
  fun _ => (sortPc_perm hs).mem_iff

theorem sortPc_sorted {s : List Nat} (hs : ValidPcs s) :
    (sortPc s).Pairwise (· < ·) := by
  rw [insertionSort_eq_sortPc hs]
  exact (List.sorted_insertionSort (· ≤ ·) s).lt_of_le
    (hs.2.perm (List.perm_insertionSort (· ≤ ·) s).symm)

theorem mem_filter_range {s : List Nat} {e : Nat} :
    e ∈ (List.range 12).filter (· ∈ s) ↔ e < 12 ∧ e ∈ s := by
  simp [List.mem_filter, List.mem_range, and_comm]

theorem filter_range_sorted (s : List Nat) :
    ((List.range 12).filter (· ∈ s)).Pairwise (· < ·) :=
  (List.pairwise_lt_range 12).filter _

theorem eq_of_setEq_of_sorted {u v : List Nat} (hu : u.Pairwise (· < ·))
    (hv : v.Pairwise (· < ·)) (h : SetEq u v) : u = v := by
  have hu' : List.Sorted (· ≤ ·) u := hu.imp le_of_lt
  have hv' : List.Sorted (· ≤ ·) v := hv.imp le_of_lt
  exact List.eq_of_perm_of_sorted (h.perm hu.nodup hv.nodup) hu' hv'

theorem sortPc_eq_filter {s : List Nat} (hs : ValidPcs s) :
    sortPc s = (List.range 12).filter (· ∈ s) := by
  refine eq_of_setEq_of_sorted (sortPc_sorted hs) (filter_range_sorted s) ?_
  intro e
  rw [mem_filter_range, (sortPc_setEq hs) e]
  exact ⟨fun h => ⟨hs.1 e h, h⟩, fun h => h.2⟩

theorem sortPc_congr {a b : List Nat} (ha : ValidPcs a) (hb : ValidPcs b)
    (h : SetEq a b) : sortPc a = sortPc b := by
  rw [sortPc_eq_filter ha, sortPc_eq_filter hb]
  exact List.filter_congr (fun e _ => by simp [h e])

/-! The `shift` operation as a list rotation. -/

theorem rotate_valid {s : List Nat} (hs : ValidPcs s) (n : Nat) : ValidPcs (s.rotate n) :=
  ⟨fun e he => hs.1 e (List.mem_rotate.mp he), ((s.rotate_perm n).nodup_iff).mpr hs.2⟩

theorem rotateRightOnce_eq_rotate {l : List Nat} (h : l ≠ []) :
    rotateRightOnce l = l.rotate (l.length - 1) := by
  have hsplit : l.dropLast ++ [l.getLast h] = l := List.dropLast_append_getLast h
  have hlen : l.dropLast.length = l.length - 1 := List.length_dropLast l
  have hdrop := List.drop_left l.dropLast [l.getLast h]
  have htake := List.take_left l.dropLast [l.getLast h]
  rw [hsplit, hlen] at hdrop htake
  rw [List.rotate_eq_drop_append_take (Nat.sub_le _ _), hdrop, htake]
  unfold rotateRightOnce
  rw [List.getLast?_eq_getLast l h]
  simp

theorem iterate_rotateRightOnce {l : List Nat} (h : l ≠ []) (k : Nat) :
    rotateRightOnce^[k] l = l.rotate (k * (l.length - 1)) := by
  induction k with
  | zero => simp
  | succ k ih =>
    rw [Function.iterate_succ_apply', ih]
    have hne : l.rotate (k * (l.length - 1)) ≠ [] := by
      intro hc
      apply h
      have := congrArg List.length hc
      rw [List.length_rotate] at this
      exact List.length_eq_zero.mp this
    rw [rotateRightOnce_eq_rotate hne, List.length_rotate, List.rotate_rotate]
    congr 1
    ring

theorem shift_eq_rotate {s : List Nat} (hs : ValidPcs s) (h1 : 1 < s.length)
    {k : Nat} (hk : k < s.length) :
    shift s (Int.ofNat k) = s.rotate (k * (s.length - 1)) := by
  unfold shift
  rw [if_pos h1]
  have hne : s ≠ [] := by
    intro hc
    rw [hc] at h1
    simp at h1
  have hmod : ((Int.ofNat k) % ((s.length : Nat) : Int)).toNat = k := by
    have h0 : (Int.ofNat k) = (k : Int) := rfl
    rw [h0, Int.emod_eq_of_lt (by omega) (by exact_mod_cast hk)]
    omega
  rw [hmod, iterate_rotateRightOnce hne k]
  exact mkNat_eq_self (rotate_valid hs _)

theorem rotate_index_congr {m : Nat} (hm : 0 < m) (j : Nat) :
    ((m - j % m) % m) * (m - 1) % m = j % m := by
  have hr : j % m < m := Nat.mod_lt _ hm
  set r := j % m with hrdef
  have step1 : ((m - r) % m) * (m - 1) ≡ (m - r) * (m - 1) [MOD m] :=
    (Nat.mod_modEq (m - r) m).mul_right (m - 1)
  have step2 : (m - r) * (m - 1) ≡ r [MOD m] := by
    rw [Nat.modEq_iff_dvd]
    push_cast [Nat.cast_sub (le_of_lt hr), Nat.cast_sub (show 1 ≤ m by omega)]
    refine ⟨(r : Int) + 1 - m, ?_⟩
    ring
  have hfin := step1.trans step2
  unfold Nat.ModEq at hfin
  rw [hfin]
  exact Nat.mod_eq_of_lt hr

/-! The fold in `normal` selects the first minimum (in traversal
order) of the zeroed binary values. -/

theorem foldl_min_le (f : List Nat → Nat) :
    ∀ (l : List (List Nat)) (b x : List Nat), x ∈ b :: l →
      f (l.foldl (fun best a => if f a < f best then a else best) b) ≤ f x := by
  intro l
  induction l with
  | nil =>
    intro b x hx
    rcases List.mem_singleton.mp hx with rfl
    simp
  | cons a t ih =>
    intro b x hx
    simp only [List.foldl_cons]
    have hstep : f (if f a < f b then a else b) ≤ f a ∧
        f (if f a < f b then a else b) ≤ f b := by
      by_cases hab : f a < f b
      · rw [if_pos hab]
        omega
      · rw [if_neg hab]
        omega
    rcases List.mem_cons.mp hx with rfl | hx'
    · exact le_trans (ih _ _ (List.mem_cons_self _ _)) hstep.2
    rcases List.mem_cons.mp hx' with rfl | hx''
    · exact le_trans (ih _ _ (List.mem_cons_self _ _)) hstep.1
    · exact ih _ x (List.mem_cons_of_mem _ hx'')

theorem foldl_min_decomp (f : List Nat → Nat) :
    ∀ (l : List (List Nat)) (b : List Nat),
      ∃ pre post, b :: l =
          pre ++ (l.foldl (fun best a => if f a < f best then a else best) b) :: post ∧
        ∀ x ∈ pre, f (l.foldl (fun best a => if f a < f best then a else best) b) < f x := by
  intro l
  induction l with
  | nil =>
    intro b
    exact ⟨[], [], rfl, by simp⟩
  | cons a t ih =>
    intro b
    simp only [List.foldl_cons]
    by_cases hab : f a < f b
    · rw [if_pos hab]
      rcases ih a with ⟨pre', post', hsplit, hpre⟩
      refine ⟨b :: pre', post', ?_, ?_⟩
      · rw [List.cons_append, ← hsplit]
      · intro x hx
        rcases List.mem_cons.mp hx with rfl | hx'
        · exact lt_of_le_of_lt (foldl_min_le f t a a (List.mem_cons_self a t)) hab
        · exact hpre x hx'
    · rw [if_neg hab]
      rcases ih b with ⟨pre', post', hsplit, hpre⟩
      cases pre' with
      | nil =>
        simp only [List.nil_append] at hsplit
        injection hsplit with h1 h2
        refine ⟨[], a :: t, ?_, by simp⟩
        rw [List.nil_append, ← h1]
      | cons p ps =>
        rw [List.cons_append] at hsplit
        injection hsplit with hp ht
        have hrb : f (t.foldl (fun best a => if f a < f best then a else best) b) < f b := by
          have h3 := hpre p (List.mem_cons_self p ps)
          rw [← hp] at h3
          exact h3
        refine ⟨b :: a :: ps, post', ?_, ?_⟩
        · rw [List.cons_append, List.cons_append, ← ht]
        · intro x hx
          rcases List.mem_cons.mp hx with rfl | hx'
          · exact hrb
          rcases List.mem_cons.mp hx' with rfl | hx''
          · exact lt_of_lt_of_le hrb (by omega)
          · exact hpre x (List.mem_cons_of_mem p hx'')

theorem firstMinBy_eq_some {f : List Nat → Nat} {L : List (List Nat)}
    {r : List Nat} {pre post : List (List Nat)}
    (hL : L = pre ++ r :: post) (hpre : ∀ x ∈ pre, f r < f x)
    (hmin : ∀ x ∈ L, f r ≤ f x) : firstMinBy f L = some r := by
  unfold firstMinBy
  have hLr : r ∈ L := by
    rw [hL]
    exact List.mem_append_right pre (List.mem_cons_self r post)
  conv_lhs => rw [hL]
  rw [List.find?_append]
  have hnone : (pre.find? fun x => L.all fun y => decide (f x ≤ f y)) = none := by
    rw [List.find?_eq_none]
    intro x hx
    simp only [List.all_eq_true, decide_eq_true_eq, not_forall]
    exact ⟨r, hLr, by have := hpre x hx; omega⟩
  have hsame : (pre.find? fun x => (pre ++ r :: post).all fun y => decide (f x ≤ f y)) =
      (pre.find? fun x => L.all fun y => decide (f x ≤ f y)) := by
    rw [hL]
  rw [hsame, hnone, Option.none_or]
  apply List.find?_cons_of_pos
  simp only [List.all_eq_true, decide_eq_true_eq]
  intro y hy
  refine hmin y ?_
  rw [hL]
  exact hy

/-! Characterization of `normal` on sets of size at least 2. -/

theorem normal_small {s : List Nat} (h : s.length < 2) : normal s = mkNat s := by
  unfold normal
  rw [if_pos h]

theorem getLastD_mem {l : List (List Nat)} (h : l ≠ []) : l.getLastD [] ∈ l := by
  rw [List.getLastD_eq_getLast?, List.getLast?_eq_getLast l h]
  exact List.getLast_mem h

theorem normal_mem_min {s : List Nat} (hs : ValidPcs s) (h2 : 2 ≤ s.length) :
    normal s ∈ (List.range s.length).map (fun n => shift (sortPc s) (Int.ofNat n)) ∧
      ∀ x ∈ (List.range s.length).map (fun n => shift (sortPc s) (Int.ofNat n)),
        binaryvalue (zero (normal s)) ≤ binaryvalue (zero x) := by
  have hne : (List.range s.length).map (fun n => shift (sortPc s) (Int.ofNat n)) ≠ [] := by
    intro hc
    have h0 := congrArg List.length hc
    simp only [List.length_map, List.length_range, List.length_nil] at h0
    omega
  have hsplit :=
    List.dropLast_append_getLast (l := (List.range s.length).map
      (fun n => shift (sortPc s) (Int.ofNat n))) hne
  have hgl : ((List.range s.length).map (fun n => shift (sortPc s) (Int.ofNat n))).getLastD [] ∈
      (List.range s.length).map (fun n => shift (sortPc s) (Int.ofNat n)) := getLastD_mem hne
  have hglD : ((List.range s.length).map (fun n => shift (sortPc s) (Int.ofNat n))).getLastD [] =
      ((List.range s.length).map (fun n => shift (sortPc s) (Int.ofNat n))).getLast hne := by
    rw [List.getLastD_eq_getLast?, List.getLast?_eq_getLast _ hne]
    rfl
  have hnormal : normal s =
      (((List.range s.length).map (fun n => shift (sortPc s) (Int.ofNat n))).dropLast).foldl
        (fun best arrangement =>
          if binaryvalue (zero arrangement) < binaryvalue (zero best) then arrangement
          else best)
        (((List.range s.length).map (fun n => shift (sortPc s) (Int.ofNat n))).getLastD []) := by
    unfold normal
    rw [if_neg (by omega)]
  constructor
  · rcases foldl_min_decomp (fun r => binaryvalue (zero r))
        (((List.range s.length).map (fun n => shift (sortPc s) (Int.ofNat n))).dropLast)
        (((List.range s.length).map (fun n => shift (sortPc s) (Int.ofNat n))).getLastD [])
      with ⟨pre, post, hdecomp, _⟩
    rw [← hnormal] at hdecomp
    have hmem : normal s ∈
        (((List.range s.length).map (fun n => shift (sortPc s) (Int.ofNat n))).getLastD []) ::
          (((List.range s.length).map (fun n => shift (sortPc s) (Int.ofNat n))).dropLast) := by
      rw [hdecomp]
      exact List.mem_append_right pre (List.mem_cons_self _ post)
    rcases List.mem_cons.mp hmem with heq | hmem'
    · rw [heq]
      exact hgl
    · exact (List.dropLast_sublist _).subset hmem'
  · intro x hx
    have hx' : x ∈
        (((List.range s.length).map (fun n => shift (sortPc s) (Int.ofNat n))).getLastD []) ::
          (((List.range s.length).map (fun n => shift (sortPc s) (Int.ofNat n))).dropLast) := by
      rw [← hsplit] at hx
      rcases List.mem_append.mp hx with hx1 | hx2
      · exact List.mem_cons_of_mem _ hx1
      · rcases List.mem_singleton.mp hx2 with rfl
        rw [hglD]
        exact List.mem_cons_self _ _
    rw [hnormal]
    exact foldl_min_le (fun r => binaryvalue (zero r)) _ _ x hx'

theorem normal_spec {s : List Nat} (hs : ValidPcs s) (h2 : 2 ≤ s.length) :
    (∃ j : Nat, normal s = (sortPc s).rotate j) ∧
      ∀ i : Nat, binaryvalue (zero (normal s)) ≤ binaryvalue (zero ((sortPc s).rotate i)) := by
  have hAlen : (sortPc s).length = s.length := (sortPc_perm hs).length_eq
  have hA : ValidPcs (sortPc s) := sortPc_valid s
  have h1A : 1 < (sortPc s).length := by omega
  rcases normal_mem_min hs h2 with ⟨hmem, hmin⟩
  constructor
  · rcases List.mem_map.mp hmem with ⟨k, hk, hks⟩
    rw [List.mem_range] at hk
    refine ⟨k * ((sortPc s).length - 1), ?_⟩
    rw [← hks]
    exact shift_eq_rotate hA h1A (show k < (sortPc s).length by omega)
  · intro i
    have hm : 0 < (sortPc s).length := by omega
    have hklt : ((sortPc s).length - i % (sortPc s).length) % (sortPc s).length <
        (sortPc s).length := Nat.mod_lt _ hm
    have hshift := shift_eq_rotate hA h1A hklt
    have hcongr := rotate_index_congr hm i
    have hrot : (sortPc s).rotate
        ((((sortPc s).length - i % (sortPc s).length) % (sortPc s).length) *
          ((sortPc s).length - 1)) = (sortPc s).rotate i := by
      rw [← List.rotate_mod, hcongr, List.rotate_mod]
    rw [← hrot, ← hshift]
    exact hmin _ (List.mem_map.mpr ⟨_, List.mem_range.mpr (by omega), rfl⟩)

theorem normal_valid {s : List Nat} (hs : ValidPcs s) : ValidPcs (normal s) := by
  by_cases h : s.length < 2
  · rw [normal_small h]
    exact mkNat_valid s
  · rcases (normal_spec hs (by omega)).1 with ⟨j, hj⟩
    rw [hj]
    exact rotate_valid (sortPc_valid s) j

theorem normal_setEq {s : List Nat} (hs : ValidPcs s) : SetEq (normal s) s := by
  by_cases h : s.length < 2
  · rw [normal_small h, mkNat_eq_self hs]
    exact SetEq.refl s
  · rcases (normal_spec hs (by omega)).1 with ⟨j, hj⟩
    rw [hj]
    intro e
    rw [List.mem_rotate]
    exact sortPc_setEq hs e

theorem eq_of_setEq_of_short {a b : List Nat} (ha : ValidPcs a) (hb : ValidPcs b)
    (h : SetEq a b) (hlen : a.length < 2) : a = b := by
  have hl := h.length_eq ha.2 hb.2
  cases a with
  | nil =>
    cases b with
    | nil => rfl
    | cons y t => simp at hl
  | cons x t =>
    cases t with
    | cons x' t' =>
      simp at hlen
      omega
    | nil =>
      rcases List.length_eq_one.mp hl.symm with ⟨y, hy⟩
      rw [hy]
      have : y ∈ [x] := (h y).mpr (by rw [hy]; exact List.mem_singleton_self y)
      rw [List.mem_singleton.mp this]

theorem normal_congr {a b : List Nat} (ha : ValidPcs a) (hb : ValidPcs b)
    (h : SetEq a b) : normal a = normal b := by
  have hlen := h.length_eq ha.2 hb.2
  have hsort := sortPc_congr ha hb h
  by_cases hsmall : a.length < 2
  · rw [normal_small hsmall, normal_small (by omega), mkNat_eq_self ha, mkNat_eq_self hb]
    exact eq_of_setEq_of_short ha hb h hsmall
  · unfold normal
    rw [hlen, hsort, if_neg (show ¬b.length < 2 by omega), if_neg (show ¬b.length < 2 by omega)]

/-! The binary value of a strictly ascending list determines the list:
bit `e` of `binaryvalue l` is set exactly when `e ∈ l`. -/

theorem foldl_add_pow (l : List Nat) : ∀ init : Nat,
    l.foldl (fun value bit => value + 2 ^ bit) init = init + (l.map (2 ^ ·)).sum := by
  induction l with
  | nil => simp
  | cons a t ih =>
    intro init
    rw [List.foldl_cons, ih, List.map_cons, List.sum_cons]
    omega

theorem binaryvalue_eq_sum (l : List Nat) : binaryvalue l = (l.map (2 ^ ·)).sum := by
  unfold binaryvalue
  rw [foldl_add_pow]
  omega

theorem testBit_sum_sorted : ∀ {l : List Nat}, l.Pairwise (· < ·) →
    ∀ e : Nat, ((l.map (2 ^ ·)).sum).testBit e = decide (e ∈ l) := by
  intro l
  induction l with
  | nil =>
    intro _ e
    simp
  | cons a t ih =>
    intro hp e
    have hcons := List.pairwise_cons.mp hp
    have hgt : ∀ x ∈ t, a < x := hcons.1
    have ht := hcons.2
    have hdvd : 2 ^ (a + 1) ∣ (t.map (2 ^ ·)).sum := by
      refine List.dvd_sum ?_
      intro x hx
      rcases List.mem_map.mp hx with ⟨b, hb, rfl⟩
      exact pow_dvd_pow 2 (hgt b hb)
    rcases hdvd with ⟨c, hc⟩
    have hlt : (2 : Nat) ^ a < 2 ^ (a + 1) :=
      Nat.pow_lt_pow_right one_lt_two (Nat.lt_succ_self a)
    have hmain := Nat.testBit_mul_pow_two_add c hlt e
    rw [List.map_cons, List.sum_cons, hc, Nat.add_comm, hmain]
    by_cases he : e < a + 1
    · rw [if_pos he]
      by_cases hea : e = a
      · subst hea
        simp [Nat.testBit_two_pow_self]
      · have hnt : e ∉ t := fun hmem => absurd (hgt e hmem) (by omega)
        rw [Nat.testBit_two_pow_of_ne (fun hc2 => hea hc2.symm)]
        simp [hea, hnt]
    · rw [if_neg he]
      have hea : ¬e = a := by omega
      have he' : a + 1 ≤ e := by omega
      have hih := ih ht e
      rw [hc, Nat.testBit_mul_pow_two] at hih
      simp only [ge_iff_le, he', decide_True, Bool.true_and] at hih
      rw [hih]
      simp [List.mem_cons, hea]

theorem mem_iff_testBit {l : List Nat} (hl : l.Pairwise (· < ·)) (e : Nat) :
    e ∈ l ↔ (binaryvalue l).testBit e = true := by
  rw [binaryvalue_eq_sum, testBit_sum_sorted hl e]
  simp

theorem binaryvalue_inj {u v : List Nat} (hu : u.Pairwise (· < ·))
    (hv : v.Pairwise (· < ·)) (h : binaryvalue u = binaryvalue v) : u = v := by
  refine eq_of_setEq_of_sorted hu hv ?_
  intro e
  rw [mem_iff_testBit hu e, mem_iff_testBit hv e, h]

/-! The zero form of any rotation of a sorted set is strictly
ascending and starts with 0. -/

theorem zero_cons (a : Nat) (l : List Nat) :
    zero (a :: l) = transpose (a :: l) (-(a : Int)) := rfl

theorem mkNat_nil : mkNat [] = [] := rfl

theorem zero_valid (s : List Nat) : ValidPcs (zero s) := by
  cases s with
  | nil => exact mkNat_valid _
  | cons a l => exact transpose_valid _ _

theorem length_zero {s : List Nat} (hs : ValidPcs s) : (zero s).length = s.length := by
  cases s with
  | nil => rfl
  | cons a l => exact length_transpose hs _

theorem res_neg_self (a : Nat) : res (-(a : Int)) a = 0 := by
  have h := res_cast (-(a : Int)) a
  omega

theorem zero_head {r : List Nat} (hr : ValidPcs r) (hne : r ≠ []) :
    (zero r).head? = some 0 := by
  cases r with
  | nil => exact absurd rfl hne
  | cons a l =>
    rw [zero_cons, transpose_eq_tmap hr]
    unfold tmap
    rw [List.map_cons]
    simp [res_neg_self a]

theorem res_neg_of_ge {a e : Nat} (h1 : a ≤ e) (h2 : e < 12) :
    res (-(a : Int)) e = e - a := by
  have h := res_cast (-(a : Int)) e
  omega

theorem res_neg_of_lt {a e : Nat} (h1 : e < a) (h2 : a < 12) :
    res (-(a : Int)) e = e + 12 - a := by
  have h := res_cast (-(a : Int)) e
  omega

theorem pairwise_of_short {l : List Nat} (h : l.length ≤ 1) : l.Pairwise (· < ·) := by
  cases l with
  | nil => exact List.Pairwise.nil
  | cons a t =>
    cases t with
    | nil => exact List.pairwise_singleton _ _
    | cons b u => simp at h

theorem zero_rotate_pairwise {A : List Nat} (hA : ValidPcs A)
    (hsorted : A.Pairwise (· < ·)) (hne : A ≠ []) (j : Nat) :
    (zero (A.rotate j)).Pairwise (· < ·) := by
  have hlen : 0 < A.length := List.length_pos.mpr hne
  have ht : j % A.length < A.length := Nat.mod_lt _ hlen
  obtain ⟨a0, dtail, hdrop⟩ : ∃ a0 dtail, A.drop (j % A.length) = a0 :: dtail := by
    cases hd : A.drop (j % A.length) with
    | nil =>
      exfalso
      have hlength := congrArg List.length hd
      rw [List.length_drop] at hlength
      simp at hlength
      omega
    | cons x xs => exact ⟨x, xs, rfl⟩
  have hrot : A.rotate j = (a0 :: dtail) ++ A.take (j % A.length) := by
    rw [← List.rotate_mod, List.rotate_eq_drop_append_take (le_of_lt ht), hdrop]
  have hsplit2 : (A.take (j % A.length) ++ A.drop (j % A.length)).Pairwise (· < ·) := by
    rw [List.take_append_drop]
    exact hsorted
  rcases List.pairwise_append.mp hsplit2 with ⟨htk, hdp, hcross⟩
  rw [hdrop] at hdp
  have hmemA_take : ∀ x ∈ A.take (j % A.length), x ∈ A :=
    fun x hx => List.take_subset _ A hx
  have hmemA_drop : ∀ x ∈ a0 :: dtail, x ∈ A := by
    rw [← hdrop]
    exact fun x hx => List.drop_subset _ A hx
  have ha0 : a0 < 12 := hA.1 a0 (hmemA_drop a0 (List.mem_cons_self _ _))
  have ha0le : ∀ y ∈ a0 :: dtail, a0 ≤ y := by
    intro y hy
    rcases List.mem_cons.mp hy with rfl | hy'
    · exact le_refl y
    · exact le_of_lt ((List.pairwise_cons.mp hdp).1 y hy')
  have htklt : ∀ x ∈ A.take (j % A.length), x < a0 := by
    intro x hx
    exact hcross x hx a0 (by rw [hdrop]; exact List.mem_cons_self _ _)
  have hvrot : ValidPcs (a0 :: (dtail ++ A.take (j % A.length))) := by
    rw [← List.cons_append, ← hrot]
    exact rotate_valid hA j
  rw [hrot, List.cons_append, zero_cons, transpose_eq_tmap hvrot]
  unfold tmap
  rw [← List.cons_append, List.map_append]
  refine List.pairwise_append.mpr ⟨?_, ?_, ?_⟩
  · refine List.pairwise_map.mpr ?_
    refine hdp.imp_of_mem ?_
    intro x y hx hy hxy
    rw [res_neg_of_ge (ha0le x hx) (hA.1 x (hmemA_drop x hx)),
      res_neg_of_ge (ha0le y hy) (hA.1 y (hmemA_drop y hy))]
    have h1 := ha0le x hx
    omega
  · refine List.pairwise_map.mpr ?_
    refine htk.imp_of_mem ?_
    intro x y hx hy hxy
    rw [res_neg_of_lt (htklt x hx) ha0, res_neg_of_lt (htklt y hy) ha0]
    have := htklt y hy
    omega
  · intro u hu v hv
    rcases List.mem_map.mp hu with ⟨x, hx, rfl⟩
    rcases List.mem_map.mp hv with ⟨y, hy, rfl⟩
    rw [res_neg_of_ge (ha0le x hx) (hA.1 x (hmemA_drop x hx)),
      res_neg_of_lt (htklt y hy) ha0]
    have hx12 : x < 12 := hA.1 x (hmemA_drop x hx)
    omega

theorem sortPc_ne_nil {s : List Nat} (hs : ValidPcs s) (hne : s ≠ []) :
    sortPc s ≠ [] := by
  intro hc
  apply hne
  have := congrArg List.length hc
  rw [(sortPc_perm hs).length_eq] at this
  exact List.length_eq_zero.mp this

theorem reduced_pairwise {s : List Nat} (hs : ValidPcs s) :
    (reduced s).Pairwise (· < ·) := by
  by_cases h2 : s.length < 2
  · refine pairwise_of_short ?_
    unfold reduced
    rw [normal_small h2, mkNat_eq_self hs, length_zero hs]
    omega
  · rcases (normal_spec hs (by omega)).1 with ⟨j, hj⟩
    unfold reduced
    rw [hj]
    refine zero_rotate_pairwise (sortPc_valid s) (sortPc_sorted hs) ?_ j
    refine sortPc_ne_nil hs ?_
    intro hc
    rw [hc] at h2
    simp at h2

theorem reduced_valid (s : List Nat) : ValidPcs (reduced s) :=
  zero_valid (normal s)

theorem normal_ne_nil {s : List Nat} (hs : ValidPcs s) (hne : s ≠ []) :
    normal s ≠ [] := by
  intro hc
  apply hne
  have hl := (normal_setEq hs).length_eq (normal_valid hs).2 hs.2
  rw [hc] at hl
  simp at hl
  exact List.length_eq_zero.mp hl.symm

theorem reduced_head {s : List Nat} (hs : ValidPcs s) (hne : s ≠ []) :
    (reduced s).head? = some 0 :=
  zero_head (normal_valid hs) (normal_ne_nil hs hne)

/-! Transposing a set only rotates its sorted arrangement, and the
zero form cancels a transposition applied to each rotation.  This is
the heart of the transposition invariance of the reduced form. -/

theorem res_eq_natMod (n : Int) (e : Nat) :
    res n e = (e + (n % 12).toNat) % 12 := by
  have h1 := res_cast n e
  have h2 := Int.emod_nonneg n (by norm_num : (12 : Int) ≠ 0)
  have h3 := Int.emod_lt_of_pos n (by norm_num : (0 : Int) < 12)
  omega

theorem res_cancel (n : Int) (a e : Nat) :
    res (-((res n a : Nat) : Int)) (res n e) = res (-(a : Int)) e := by
  have h1 := res_cast n e
  have h2 := res_cast n a
  have h3 := res_cast (-((res n a : Nat) : Int)) (res n e)
  have h4 := res_cast (-(a : Int)) e
  omega

theorem zero_tmap {r : List Nat} (hr : ValidPcs r) (n : Int) :
    zero (tmap n r) = zero r := by
  cases r with
  | nil => rfl
  | cons a rest =>
    have h1 : zero (tmap n (a :: rest)) =
        transpose (tmap n (a :: rest)) (-((res n a : Nat) : Int)) := rfl
    rw [h1, zero_cons, transpose_eq_tmap (tmap_valid hr n), transpose_eq_tmap hr]
    unfold tmap
    rw [List.map_map]
    refine List.map_congr_left ?_
    intro e _
    exact res_cancel n a e

theorem dropWhile_false_of_sorted {p : Nat → Bool}
    (hanti : ∀ x y : Nat, x ≤ y → p y = true → p x = true) :
    ∀ {A : List Nat}, A.Pairwise (· < ·) → ∀ y ∈ A.dropWhile p, p y = false := by
  intro A
  induction A with
  | nil =>
    intro _ y hy
    simp at hy
  | cons a t ih =>
    intro hp y hy
    rcases List.pairwise_cons.mp hp with ⟨hlt, htp⟩
    by_cases hpa : p a = true
    · rw [List.dropWhile_cons_of_pos hpa] at hy
      exact ih htp y hy
    · rw [List.dropWhile_cons_of_neg hpa] at hy
      rcases List.mem_cons.mp hy with rfl | hy'
      · simpa using hpa
      · by_contra hpy
        rw [Bool.not_eq_false] at hpy
        exact hpa (hanti a y (le_of_lt (hlt y hy')) hpy)

theorem exists_rotation_sortPc_transpose {s : List Nat} (hs : ValidPcs s) (n : Int) :
    ∃ t : Nat, sortPc (transpose s n) = (tmap n (sortPc s)).rotate t := by
  set p : Nat → Bool := fun a => decide (a + (n % 12).toNat < 12) with hpdef
  have hn' : (n % 12).toNat < 12 := by
    have h2 := Int.emod_nonneg n (by norm_num : (12 : Int) ≠ 0)
    have h3 := Int.emod_lt_of_pos n (by norm_num : (0 : Int) < 12)
    omega
  have hA : ValidPcs (sortPc s) := sortPc_valid s
  have hsorted : (sortPc s).Pairwise (· < ·) := sortPc_sorted hs
  refine ⟨((sortPc s).takeWhile p).length, ?_⟩
  have hsplitA : (sortPc s).takeWhile p ++ (sortPc s).dropWhile p = sortPc s :=
    List.takeWhile_append_dropWhile p (sortPc s)
  have hTlen : ((sortPc s).takeWhile p).length ≤ (sortPc s).length := by
    have := congrArg List.length hsplitA
    rw [List.length_append] at this
    omega
  have hdropt : (sortPc s).drop ((sortPc s).takeWhile p).length = (sortPc s).dropWhile p := by
    have h := List.drop_left ((sortPc s).takeWhile p) ((sortPc s).dropWhile p)
    rwa [hsplitA] at h
  have htaket : (sortPc s).take ((sortPc s).takeWhile p).length = (sortPc s).takeWhile p := by
    have h := List.take_left ((sortPc s).takeWhile p) ((sortPc s).dropWhile p)
    rwa [hsplitA] at h
  have hrot : (tmap n (sortPc s)).rotate ((sortPc s).takeWhile p).length =
      ((sortPc s).dropWhile p).map (res n) ++ ((sortPc s).takeWhile p).map (res n) := by
    unfold tmap
    rw [← List.map_rotate, List.rotate_eq_drop_append_take hTlen, hdropt, htaket,
      List.map_append]
  -- element bounds in the two blocks
  have htw_mem : ∀ x ∈ (sortPc s).takeWhile p, x + (n % 12).toNat < 12 := by
    intro x hx
    have := List.mem_takeWhile_imp hx
    rw [hpdef] at this
    simpa using this
  have hanti : ∀ x y : Nat, x ≤ y → p y = true → p x = true := by
    intro x y hxy hy
    rw [hpdef] at hy ⊢
    simp only [decide_eq_true_eq] at hy ⊢
    omega
  have hdw_mem : ∀ y ∈ (sortPc s).dropWhile p, 12 ≤ y + (n % 12).toNat := by
    intro y hy
    have := dropWhile_false_of_sorted hanti hsorted y hy
    rw [hpdef] at this
    simp only [decide_eq_false_iff_not, not_lt] at this
    exact this
  have htw_sub : ∀ x ∈ (sortPc s).takeWhile p, x ∈ sortPc s :=
    fun x hx => (List.takeWhile_sublist p).subset hx
  have hdw_sub : ∀ x ∈ (sortPc s).dropWhile p, x ∈ sortPc s :=
    fun x hx => (List.dropWhile_sublist p).subset hx
  have hres_lo : ∀ e ∈ (sortPc s).takeWhile p, res n e = e + (n % 12).toNat := by
    intro e he
    rw [res_eq_natMod]
    have := htw_mem e he
    omega
  have hres_hi : ∀ e ∈ (sortPc s).dropWhile p, res n e = e + (n % 12).toNat - 12 := by
    intro e he
    rw [res_eq_natMod]
    have h1 := hdw_mem e he
    have h2 := hA.1 e (hdw_sub e he)
    omega
  -- the right-hand side is strictly ascending
  have hpw : (((sortPc s).dropWhile p).map (res n) ++
      ((sortPc s).takeWhile p).map (res n)).Pairwise (· < ·) := by
    refine List.pairwise_append.mpr ⟨?_, ?_, ?_⟩
    · refine List.pairwise_map.mpr ?_
      refine (hsorted.sublist (List.dropWhile_sublist p)).imp_of_mem ?_
      intro x y hx hy hxy
      rw [hres_hi x hx, hres_hi y hy]
      have h1 := hdw_mem x hx
      omega
    · refine List.pairwise_map.mpr ?_
      refine (hsorted.sublist (List.takeWhile_sublist p)).imp_of_mem ?_
      intro x y hx hy hxy
      rw [hres_lo x hx, hres_lo y hy]
      omega
    · intro u hu v hv
      rcases List.mem_map.mp hu with ⟨x, hx, rfl⟩
      rcases List.mem_map.mp hv with ⟨y, hy, rfl⟩
      rw [hres_hi x hx, hres_lo y hy]
      have h1 := hA.1 x (hdw_sub x hx)
      have h2 := hdw_mem x hx
      omega
  -- both sides are sorted lists with the same members
  rw [hrot]
  refine eq_of_setEq_of_sorted (sortPc_sorted (transpose_valid s n)) hpw ?_
  intro e
  rw [(sortPc_setEq (transpose_valid s n)) e, transpose_eq_tmap hs n]
  constructor
  · intro he
    rcases List.mem_map.mp he with ⟨x, hx, rfl⟩
    have hxA : x ∈ sortPc s := (sortPc_setEq hs x).mpr hx
    rw [← hsplitA] at hxA
    rcases List.mem_append.mp hxA with hxtw | hxdw
    · exact List.mem_append_right _ (List.mem_map.mpr ⟨x, hxtw, rfl⟩)
    · exact List.mem_append_left _ (List.mem_map.mpr ⟨x, hxdw, rfl⟩)
  · intro he
    rcases List.mem_append.mp he with he1 | he1
    · rcases List.mem_map.mp he1 with ⟨x, hx, rfl⟩
      exact List.mem_map.mpr ⟨x, (sortPc_setEq hs x).mp (hdw_sub x hx), rfl⟩
    · rcases List.mem_map.mp he1 with ⟨x, hx, rfl⟩
      exact List.mem_map.mpr ⟨x, (sortPc_setEq hs x).mp (htw_sub x hx), rfl⟩

theorem reduced_singleton {x : Nat} (hx : x < 12) : reduced [x] = [0] := by
  have hv : ValidPcs [x] := ⟨by simpa using hx, List.nodup_singleton x⟩
  unfold reduced
  rw [normal_small (by simp), mkNat_eq_self hv, zero_cons, transpose_eq_tmap hv]
  show [res (-(x : Int)) x] = [0]
  rw [res_neg_self]

theorem reduced_transpose_eq {s : List Nat} (hs : ValidPcs s) (n : Int) :
    reduced (transpose s n) = reduced s := by
  by_cases h2 : s.length < 2
  · cases s with
    | nil => rfl
    | cons a rest =>
      have hr : rest = [] := by
        have h3 : (a :: rest).length < 2 := h2
        simp at h3
        have h4 : rest.length = 0 := by omega
        exact List.length_eq_zero.mp h4
      subst hr
      have ht : transpose [a] n = [res n a] := transpose_eq_tmap hs n
      rw [ht, reduced_singleton (res_lt n a),
        reduced_singleton (hs.1 a (List.mem_singleton_self a))]
  · have hlen : (transpose s n).length = s.length := length_transpose hs n
    have hts : ValidPcs (transpose s n) := transpose_valid s n
    have hApos : 0 < (sortPc s).length := by
      rw [(sortPc_perm hs).length_eq]
      omega
    refine binaryvalue_inj (reduced_pairwise hts) (reduced_pairwise hs) ?_
    rcases exists_rotation_sortPc_transpose hs n with ⟨t, hrotEq⟩
    rcases normal_spec hs (by omega) with ⟨⟨j, hj⟩, hmin⟩
    rcases normal_spec hts (by omega) with ⟨⟨j', hj'⟩, hmin'⟩
    rw [hj] at hmin
    rw [hj'] at hmin'
    have hkey : ∀ i : Nat, zero ((sortPc (transpose s n)).rotate i) =
        zero ((sortPc s).rotate (t + i)) := by
      intro i
      rw [hrotEq, List.rotate_rotate]
      have hswap : (tmap n (sortPc s)).rotate (t + i) =
          tmap n ((sortPc s).rotate (t + i)) := by
        unfold tmap
        rw [List.map_rotate]
      rw [hswap, zero_tmap (rotate_valid (sortPc_valid s) _) n]
    unfold reduced
    rw [hj', hj]
    refine le_antisymm ?_ ?_
    · have hi : (sortPc s).rotate (t + (j + ((sortPc s).length - t % (sortPc s).length))) =
          (sortPc s).rotate j := by
        rw [← List.rotate_mod _
          (t + (j + ((sortPc s).length - t % (sortPc s).length))), ← List.rotate_mod _ j]
        congr 1
        have hdm := Nat.div_add_mod t (sortPc s).length
        have hmle : t % (sortPc s).length ≤ t := Nat.mod_le t _
        have hdistrib : (sortPc s).length * (1 + t / (sortPc s).length) =
            (sortPc s).length + (sortPc s).length * (t / (sortPc s).length) := by
          ring
        have heq : t + (j + ((sortPc s).length - t % (sortPc s).length)) =
            j + (sortPc s).length * (1 + t / (sortPc s).length) := by
          have hlt := Nat.mod_lt t hApos
          omega
        rw [heq, Nat.add_mul_mod_self_left]
      have h1 := hmin' (j + ((sortPc s).length - t % (sortPc s).length))
      rw [hkey j', hkey (j + ((sortPc s).length - t % (sortPc s).length)), hi] at h1
      rw [hkey j']
      exact h1
    · have h1 := hmin (t + j')
      rw [← hkey j'] at h1
      exact h1

/-! Invariance of the prime form under the whole transformation
group, and the group algebra needed for completeness. -/

theorem intOfNat_eq_cast (x : Nat) : Int.ofNat x = (x : Int) := rfl

theorem reduced_congr {a b : List Nat} (ha : ValidPcs a) (hb : ValidPcs b)
    (h : SetEq a b) : reduced a = reduced b := by
  unfold reduced
  rw [normal_congr ha hb h]

theorem prime_def (s : List Nat) :
    prime s = if binaryvalue (reduced s) < binaryvalue (reduced (invert s)) then reduced s
      else reduced (invert s) := rfl

theorem prime_valid (s : List Nat) : ValidPcs (prime s) := by
  rw [prime_def]
  by_cases h : binaryvalue (reduced s) < binaryvalue (reduced (invert s))
  · rw [if_pos h]
    exact reduced_valid s
  · rw [if_neg h]
    exact reduced_valid (invert s)

theorem prime_reduced_or (s : List Nat) :
    prime s = reduced s ∨ prime s = reduced (invert s) := by
  rw [prime_def]
  by_cases h : binaryvalue (reduced s) < binaryvalue (reduced (invert s))
  · exact Or.inl (if_pos h)
  · exact Or.inr (if_neg h)

theorem prime_transpose_eq {s : List Nat} (hs : ValidPcs s) (n : Int) :
    prime (transpose s n) = prime s := by
  have h1 : reduced (transpose s n) = reduced s := reduced_transpose_eq hs n
  have h2 : reduced (invert (transpose s n)) = reduced (invert s) := by
    rw [invert_transpose hs n, reduced_transpose_eq (invert_valid s) (-n)]
  rw [prime_def, prime_def, h1, h2]

theorem prime_invert_eq {s : List Nat} (hs : ValidPcs s) :
    prime (invert s) = prime s := by
  have hii : invert (invert s) = s := invert_invert hs
  rw [prime_def, prime_def, hii]
  by_cases hlt : binaryvalue (reduced (invert s)) < binaryvalue (reduced s)
  · rw [if_pos hlt, if_neg (by omega)]
  · rw [if_neg hlt]
    by_cases hlt2 : binaryvalue (reduced s) < binaryvalue (reduced (invert s))
    · rw [if_pos hlt2]
    · rw [if_neg hlt2]
      exact binaryvalue_inj (reduced_pairwise hs) (reduced_pairwise (invert_valid s))
        (by omega)

theorem prime_congr {a b : List Nat} (ha : ValidPcs a) (hb : ValidPcs b)
    (h : SetEq a b) : prime a = prime b := by
  rw [prime_def, prime_def, reduced_congr ha hb h,
    reduced_congr (invert_valid a) (invert_valid b) (h.invert ha hb)]

theorem reduced_nil : reduced [] = [] := rfl

theorem reduced_setEq_transpose {s : List Nat} (hs : ValidPcs s) :
    ∃ n : Int, SetEq (reduced s) (transpose s n) := by
  rcases hshape : s with _ | ⟨a, rest⟩
  · refine ⟨0, ?_⟩
    rw [reduced_nil]
    intro e
    simp [transpose, tmap, mkNat, pydedup]
  · rw [← hshape]
    have hne : s ≠ [] := by
      rw [hshape]
      exact List.cons_ne_nil a rest
    have hnorm_ne : normal s ≠ [] := normal_ne_nil hs hne
    rcases hnormshape : normal s with _ | ⟨h0, rest'⟩
    · exact absurd hnormshape hnorm_ne
    · refine ⟨-(h0 : Int), ?_⟩
      unfold reduced
      rw [hnormshape, zero_cons]
      have hset := normal_setEq hs
      rw [hnormshape] at hset
      exact hset.transpose (by rw [← hnormshape]; exact normal_valid hs) hs (-(h0 : Int))

theorem prime_setEq_group {s : List Nat} (hs : ValidPcs s) :
    ∃ n : Int, SetEq (prime s) (transpose s n) ∨
      SetEq (prime s) (transpose (invert s) n) := by
  rcases prime_reduced_or s with hp | hp
  · rcases reduced_setEq_transpose hs with ⟨n, hn⟩
    exact ⟨n, Or.inl (hp ▸ hn)⟩
  · rcases reduced_setEq_transpose (invert_valid s) with ⟨n, hn⟩
    exact ⟨n, Or.inr (hp ▸ hn)⟩

theorem related_of_same_prime {a b : List Nat} (ha : ValidPcs a) (hb : ValidPcs b)
    (h : prime a = prime b) :
    ∃ n : Int, SetEq (transpose a n) b ∨ SetEq (transpose (invert a) n) b := by
  rcases prime_setEq_group ha with ⟨j, hja | hja⟩ <;>
    rcases prime_setEq_group hb with ⟨k, hkb | hkb⟩
  · rw [h] at hja
    have h1 : SetEq (transpose a j) (transpose b k) := hja.symm.trans hkb
    have h2 := h1.transpose (transpose_valid a j) (transpose_valid b k) (-k)
    rw [transpose_transpose ha j (-k), transpose_transpose hb k (-k),
      add_neg_cancel, transpose_zero_eq hb] at h2
    exact ⟨j + -k, Or.inl h2⟩
  · rw [h] at hja
    have h1 : SetEq (transpose a j) (transpose (invert b) k) := hja.symm.trans hkb
    have h2 := h1.transpose (transpose_valid a j) (transpose_valid (invert b) k) (-k)
    rw [transpose_transpose ha j (-k), transpose_transpose (invert_valid b) k (-k),
      add_neg_cancel, transpose_zero_eq (invert_valid b)] at h2
    have h3 := h2.invert (transpose_valid a (j + -k)) (invert_valid b)
    rw [invert_invert hb, invert_transpose ha (j + -k)] at h3
    exact ⟨-(j + -k), Or.inr h3⟩
  · rw [h] at hja
    have h1 : SetEq (transpose (invert a) j) (transpose b k) := hja.symm.trans hkb
    have h2 := h1.transpose (transpose_valid (invert a) j) (transpose_valid b k) (-k)
    rw [transpose_transpose (invert_valid a) j (-k), transpose_transpose hb k (-k),
      add_neg_cancel, transpose_zero_eq hb] at h2
    exact ⟨j + -k, Or.inr h2⟩
  · rw [h] at hja
    have h1 : SetEq (transpose (invert a) j) (transpose (invert b) k) := hja.symm.trans hkb
    have h2 := h1.transpose (transpose_valid (invert a) j) (transpose_valid (invert b) k) (-k)
    rw [transpose_transpose (invert_valid a) j (-k),
      transpose_transpose (invert_valid b) k (-k), add_neg_cancel,
      transpose_zero_eq (invert_valid b)] at h2
    have h3 := h2.invert (transpose_valid (invert a) (j + -k)) (invert_valid b)
    rw [invert_invert hb, invert_transpose (invert_valid a) (j + -k),
      invert_invert ha] at h3
    exact ⟨-(j + -k), Or.inl h3⟩

theorem reach_valid {a c : List Nat} (ha : ValidPcs a) (h : TIReachable a c) :
    ValidPcs c := by
  induction h with
  | refl => exact ha
  | transposeStep c n _ _ => exact transpose_valid c n
  | invertStep c _ _ => exact invert_valid c

theorem reach_prime_eq {a c : List Nat} (ha : ValidPcs a) (h : TIReachable a c) :
    prime c = prime a := by
  induction h with
  | refl => rfl
  | transposeStep c n hc ih => rw [prime_transpose_eq (reach_valid ha hc) n, ih]
  | invertStep c hc ih => rw [prime_invert_eq (reach_valid ha hc), ih]

theorem prime_eq_iff_reachable {a b : List Nat} (ha : ValidPcs a) (hb : ValidPcs b) :
    prime a = prime b ↔ ∃ c, TIReachable a c ∧ SetEq c b := by
  constructor
  · intro h
    rcases related_of_same_prime ha hb h with ⟨n, hrel | hrel⟩
    · exact ⟨transpose a n, .transposeStep a n .refl, hrel⟩
    · exact ⟨transpose (invert a) n, .transposeStep (invert a) n (.invertStep a .refl), hrel⟩
  · rintro ⟨c, hreach, hset⟩
    have hc := reach_valid ha hreach
    rw [← reach_prime_eq ha hreach]
    exact prime_congr hc hb hset

theorem op_any_of_same_prime {a b : List Nat} (ha : ValidPcs a) (hb : ValidPcs b)
    (h : prime a = prime b) :
    ∃ n : Nat, n < 12 ∧ (set_equality (transpose a (Int.ofNat n)) b = true ∨
      set_equality (TnI a (Int.ofNat n)) b = true) := by
  rcases related_of_same_prime ha hb h with ⟨n, hrel | hrel⟩ <;>
    refine ⟨(n % 12).toNat, ?_, ?_⟩
  · have h2 := Int.emod_nonneg n (by norm_num : (12 : Int) ≠ 0)
    have h3 := Int.emod_lt_of_pos n (by norm_num : (0 : Int) < 12)
    omega
  · refine Or.inl ?_
    rw [set_equality_iff]
    have hcast : Int.ofNat ((n % 12).toNat) = n % 12 := by
      rw [intOfNat_eq_cast]
      exact Int.toNat_of_nonneg (Int.emod_nonneg n (by norm_num))
    rw [hcast, transpose_emod]
    exact hrel
  · have h2 := Int.emod_nonneg n (by norm_num : (12 : Int) ≠ 0)
    have h3 := Int.emod_lt_of_pos n (by norm_num : (0 : Int) < 12)
    omega
  · refine Or.inr ?_
    rw [set_equality_iff]
    have hcast : Int.ofNat ((n % 12).toNat) = n % 12 := by
      rw [intOfNat_eq_cast]
      exact Int.toNat_of_nonneg (Int.emod_nonneg n (by norm_num))
    unfold TnI
    rw [hcast, transpose_emod]
    exact hrel

/-! The common-tone vector: entry `n` counts the elements shared with
the `TnI(n)` transform. -/

theorem ires_res_neg {n e : Nat} (he : e < 12) (hn : n < 12) :
    ires (res (-(n : Int)) e) = (n + 12 - e) % 12 := by
  have h1 := res_cast (-(n : Int)) e
  have h2 := ires_cast (res (-(n : Int)) e)
  omega

theorem mem_TnI_iff {s : List Nat} (hs : ValidPcs s) {n e : Nat} (hn : n < 12) :
    e ∈ TnI s (n : Int) ↔ e < 12 ∧ (n + 12 - e) % 12 ∈ s := by
  unfold TnI
  rw [transpose_eq_tmap (invert_valid s), mem_tmap_iff (invert_valid s).1,
    invert_eq_imap hs, mem_imap_iff hs.1]
  constructor
  · rintro ⟨he, _, hmem⟩
    exact ⟨he, by rwa [ires_res_neg he hn] at hmem⟩
  · rintro ⟨he, hmem⟩
    exact ⟨he, res_lt _ _, by rwa [ires_res_neg he hn]⟩

theorem count_pairs {s : List Nat} (hs : ValidPcs s) {n : Nat} (hn : n < 12) :
    ∀ u : List Nat, (∀ x ∈ u, x < 12) →
      ((u.map (fun x => s.map (fun y => (x + y) % 12))).flatten).count n =
        u.countP (fun x => decide ((n + 12 - x) % 12 ∈ s)) := by
  intro u
  induction u with
  | nil => simp
  | cons x u ih =>
    intro hu
    rw [List.map_cons, List.flatten_cons, List.count_append,
      ih (fun a ha => hu a (List.mem_cons_of_mem x ha)), List.countP_cons]
    have hx12 : x < 12 := hu x (List.mem_cons_self x u)
    have hinner : (s.map (fun y => (x + y) % 12)).count n =
        if decide ((n + 12 - x) % 12 ∈ s) = true then 1 else 0 := by
      rw [List.count_eq_countP, List.countP_map]
      have hcongr : (s.countP fun y => ((fun z => z == n) ∘ fun y => (x + y) % 12) y) =
          s.countP (fun y => y == (n + 12 - x) % 12) := by
        refine List.countP_congr ?_
        intro y hy
        have hy12 := hs.1 y hy
        simp only [Function.comp_apply, beq_iff_eq]
        constructor <;> intro h <;> omega
      rw [hcongr, ← List.count_eq_countP]
      by_cases hy0 : (n + 12 - x) % 12 ∈ s
      · rw [List.nodup_iff_count_eq_one.mp hs.2 _ hy0]
        simp [hy0]
      · rw [List.count_eq_zero_of_not_mem hy0]
        simp [hy0]
    rw [hinner]
    omega

theorem rawtable_count_common {s : List Nat} (hs : ValidPcs s) {n : Nat} (hn : n < 12) :
    ((s.map (fun x => s.map (fun y => (x + y) % 12))).flatten).count n =
      (s.filter (fun e => decide (e ∈ TnI s (n : Int)))).length := by
  rw [count_pairs hs hn s hs.1, ← List.countP_eq_length_filter]
  refine List.countP_congr ?_
  intro e he
  have he12 := hs.1 e he
  simp only [decide_eq_true_eq]
  rw [mem_TnI_iff hs hn]
  constructor
  · intro h
    exact ⟨he12, h⟩
  · intro h
    exact h.2

theorem cvec_getD {s : List Nat} {n : Nat} (hn : n < 12) :
    (cvec s).getD n 0 =
      ((s.map (fun x => s.map (fun y => (x + y) % 12))).flatten).count n := by
  show ((List.range 12).map (fun value =>
    ((s.map (fun x => s.map (fun y => (x + y) % 12))).flatten).count value)).getD n 0 = _
  rw [List.getD_eq_getElem?_getD, List.getElem?_map, List.getElem?_range hn]
  rfl

theorem cvec_common {s : List Nat} (hs : ValidPcs s) {n : Nat} (hn : n < 12) :
    (cvec s).getD n 0 = (s.filter (fun e => decide (e ∈ TnI s (n : Int)))).length := by
  rw [cvec_getD hn, rawtable_count_common hs hn]

theorem TnI_valid (s : List Nat) (n : Int) : ValidPcs (TnI s n) :=
  transpose_valid _ _

theorem length_TnI {s : List Nat} (hs : ValidPcs s) (n : Int) :
    (TnI s n).length = s.length := by
  unfold TnI
  rw [length_transpose (invert_valid s), length_invert hs]

theorem setEq_of_subset_full {u v : List Nat} (hu : u.Nodup) (hv : v.Nodup)
    (hsub : ∀ e ∈ u, e ∈ v) (hlen : v.length ≤ u.length) : SetEq u v := by
  have h1 : u.toFinset ⊆ v.toFinset := by
    intro e he
    rw [List.mem_toFinset] at he ⊢
    exact hsub e he
  have hcard : v.toFinset.card ≤ u.toFinset.card := by
    rw [List.toFinset_card_of_nodup hu, List.toFinset_card_of_nodup hv]
    exact hlen
  have h2 := Finset.eq_of_subset_of_card_le h1 hcard
  intro e
  rw [← List.mem_toFinset, ← List.mem_toFinset (a := e) (l := v), h2]

theorem common_full_iff {s : List Nat} (hs : ValidPcs s) {n : Nat} (hn : n < 12) :
    (s.filter (fun e => decide (e ∈ TnI s (n : Int)))).length = s.length ↔
      SetEq (TnI s (n : Int)) s := by
  rw [← List.countP_eq_length_filter, List.countP_eq_length]
  constructor
  · intro h
    refine SetEq.symm (setEq_of_subset_full hs.2 (TnI_valid s (n : Int)).2 ?_ ?_)
    · intro e he
      have := h e he
      simpa using this
    · rw [length_TnI hs]
  · intro h e he
    simp only [decide_eq_true_eq]
    exact (h e).mpr he

theorem symmetry_spec {s : List Nat} (hs : ValidPcs s) :
    symmetry s =
      ((List.range 12).filter (fun v : Nat => set_equality (TnI s (v : Int)) s)).length := by
  unfold symmetry
  show (((List.range 12).map (fun value =>
    ((s.map (fun x => s.map (fun y => (x + y) % 12))).flatten).count value)).count
      s.length) = _
  rw [List.count_eq_countP, List.countP_map, ← List.countP_eq_length_filter]
  refine List.countP_congr ?_
  intro v hv
  rw [List.mem_range] at hv
  simp only [Function.comp_apply, beq_iff_eq]
  rw [rawtable_count_common hs hv, common_full_iff hs hv]
  exact set_equality_iff.symm

/-! Transposition by a float amount reduces to transposition by the
floor of the amount. -/

theorem ratFloor_eq_intFloor (a : Rat) : (a.floor : Int) = ⌊a⌋ := by
  rw [Rat.floor_def' a, Rat.floor_def]

theorem moderateRat_pyFloatMod (e : Nat) (q : Rat) :
    moderateRat (pyFloatMod ((e : Rat) + q) 12) = res q.floor e := by
  unfold moderateRat pyFloatMod intOfRat
  set v : Rat := (e : Rat) + q with hv
  set k : Int := (v / 12).floor with hk
  have hkfl : k = ⌊v / 12⌋ := ratFloor_eq_intFloor (v / 12)
  have hm0 : 0 ≤ v - 12 * (k : Rat) := by
    rw [hkfl]
    have h1 := Int.sub_floor_div_mul_nonneg v (show (0 : Rat) < 12 by norm_num)
    linarith
  rw [if_pos hm0]
  have hfl2 : (v - 12 * (k : Rat)).floor = ⌊v - 12 * (k : Rat)⌋ :=
    ratFloor_eq_intFloor _
  have hfloor : ⌊v - 12 * (k : Rat)⌋ = ⌊v⌋ - 12 * k := by
    have hcast : (12 : Rat) * (k : Rat) = ((12 * k : Int) : Rat) := by
      push_cast
      ring
    rw [hcast, Int.floor_sub_int]
  have hfv : ⌊v⌋ = (e : Int) + ⌊q⌋ := by
    rw [hv, show ((e : Nat) : Rat) = (((e : Nat) : Int) : Rat) by push_cast; ring,
      Int.floor_int_add]
  unfold res
  rw [hfl2, hfloor, hfv, ratFloor_eq_intFloor q]
  omega

theorem transposeRat_eq_floor {s : List Nat} (hs : ValidPcs s) (q : Rat) :
    transposeRat s q = transpose s q.floor := by
  unfold transposeRat
  rw [transpose_eq_tmap hs]
  have hmap : s.map (fun note : Nat => moderateRat (pyFloatMod ((note : Rat) + q) 12)) =
      tmap q.floor s := by
    unfold tmap
    exact List.map_congr_left (fun e _ => moderateRat_pyFloatMod e q)
  rw [hmap, pydedup_eq_self (tmap_valid hs q.floor).2]

/-! The constructor error model: construction fails exactly on a
non-iterable definition or a rejected token, and a successful
construction establishes the `PcSet` invariant. -/

theorem moderateToken_ok_lt {t : PyToken} {v : Nat} (h : moderateToken t = .ok v) :
    v < 12 := by
  cases t with
  | int n =>
    simp only [moderateToken, Except.ok.injEq] at h
    subst h
    unfold moderate
    have h1 := Int.emod_nonneg n (by norm_num : (12 : Int) ≠ 0)
    have h2 := Int.emod_lt_of_pos n (by norm_num : (0 : Int) < 12)
    omega
  | rat q =>
    simp only [moderateToken, Except.ok.injEq] at h
    subst h
    have h1 := Int.emod_nonneg (intOfRat q) (by norm_num : (12 : Int) ≠ 0)
    have h2 := Int.emod_lt_of_pos (intOfRat q) (by norm_num : (0 : Int) < 12)
    omega
  | ch c =>
    simp only [moderateToken, moderateChar] at h
    by_cases hd : c.isDigit
    · rw [if_pos hd] at h
      simp only [Except.ok.injEq] at h
      subst h
      exact Nat.mod_lt _ (by norm_num)
    · rw [if_neg hd] at h
      by_cases hA : c = 'A'
      · rw [if_pos hA] at h
        simp only [Except.ok.injEq] at h
        omega
      · rw [if_neg hA] at h
        by_cases hB : c = 'B'
        · rw [if_pos hB] at h
          simp only [Except.ok.injEq] at h
          omega
        · rw [if_neg hB] at h
          exact absurd h (by simp)

theorem moderateToken_error_iff (t : PyToken) :
    (∃ e, moderateToken t = .error e) ↔ badToken t = true := by
  cases t with
  | int n => simp [moderateToken, badToken]
  | rat q => simp [moderateToken, badToken]
  | ch c =>
    simp only [moderateToken, moderateChar, badToken]
    by_cases hd : c.isDigit
    · simp [hd]
    · by_cases hA : c = 'A'
      · simp [hd, hA]
      · by_cases hB : c = 'B'
        · simp [hd, hA, hB]
        · simp [hd, hA, hB]

theorem moderateAll_error_iff (l : List PyToken) :
    (∃ e, moderateAll l = .error e) ↔ ∃ t ∈ l, badToken t = true := by
  induction l with
  | nil => simp [moderateAll]
  | cons t ts ih =>
    cases hmt : moderateToken t with
    | error e =>
      have hbad : badToken t = true := (moderateToken_error_iff t).mp ⟨e, hmt⟩
      simp only [moderateAll, hmt]
      exact iff_of_true ⟨e, rfl⟩ ⟨t, List.mem_cons_self t ts, hbad⟩
    | ok v =>
      have hgood : ¬ badToken t = true := by
        intro hbad
        rcases (moderateToken_error_iff t).mpr hbad with ⟨e, he⟩
        rw [hmt] at he
        exact absurd he (by simp)
      cases hma : moderateAll ts with
      | error e =>
        have hex : ∃ t' ∈ ts, badToken t' = true := ih.mp ⟨e, hma⟩
        rcases hex with ⟨t', ht', hbad'⟩
        simp only [moderateAll, hmt, hma]
        exact iff_of_true ⟨e, rfl⟩ ⟨t', List.mem_cons_of_mem t ht', hbad'⟩
      | ok ns =>
        simp only [moderateAll, hmt, hma]
        constructor
        · rintro ⟨e, he⟩
          exact absurd he (by simp)
        · rintro ⟨t', ht', hbad'⟩
          rcases List.mem_cons.mp ht' with rfl | ht''
          · exact absurd hbad' hgood
          · rcases ih.mpr ⟨t', ht'', hbad'⟩ with ⟨e, he⟩
            rw [he] at hma
            exact absurd hma (by simp)

theorem moderateAll_ok_lt : ∀ {l : List PyToken} {ns : List Nat},
    moderateAll l = .ok ns → ∀ v ∈ ns, v < 12 := by
  intro l
  induction l with
  | nil =>
    intro ns h v hv
    simp only [moderateAll, Except.ok.injEq] at h
    subst h
    simp at hv
  | cons t ts ih =>
    intro ns h v hv
    cases hmt : moderateToken t with
    | error e =>
      rw [moderateAll, hmt] at h
      exact absurd h (by simp)
    | ok w =>
      cases hma : moderateAll ts with
      | error e =>
        rw [moderateAll, hmt, hma] at h
        exact absurd h (by simp)
      | ok ns' =>
        rw [moderateAll, hmt, hma] at h
        simp only [Except.ok.injEq] at h
        subst h
        rcases List.mem_cons.mp hv with rfl | hv'
        · exact moderateToken_ok_lt hmt
        · exact ih hma v hv'

theorem mkE_error_iff (d : PyDef) : (∃ e, mkE d = .error e) ↔ badDef d := by
  cases d with
  | nonIterable =>
    simp only [mkE, badDef]
    exact iff_of_true ⟨.nonIterableDef, rfl⟩ trivial
  | ofString cs =>
    simp only [mkE, badDef]
    cases hma : moderateAll (cs.map PyToken.ch) with
    | error e =>
      have hex := (moderateAll_error_iff _).mp ⟨e, hma⟩
      rcases hex with ⟨t, ht, hbad⟩
      rcases List.mem_map.mp ht with ⟨c, hc, rfl⟩
      exact iff_of_true ⟨e, rfl⟩ ⟨c, hc, hbad⟩
    | ok ns =>
      constructor
      · rintro ⟨e, he⟩
        exact absurd he (by simp)
      · rintro ⟨c, hc, hbad⟩
        rcases (moderateAll_error_iff (cs.map PyToken.ch)).mpr
          ⟨.ch c, List.mem_map.mpr ⟨c, hc, rfl⟩, hbad⟩ with ⟨e, he⟩
        rw [he] at hma
        exact absurd hma (by simp)
  | ofList l =>
    simp only [mkE, badDef]
    cases hma : moderateAll l with
    | error e =>
      have hex := (moderateAll_error_iff _).mp ⟨e, hma⟩
      rcases hex with ⟨t, ht, hbad⟩
      exact iff_of_true ⟨e, rfl⟩ ⟨t, ht, hbad⟩
    | ok ns =>
      constructor
      · rintro ⟨e, he⟩
        exact absurd he (by simp)
      · rintro ⟨t, ht, hbad⟩
        rcases (moderateAll_error_iff l).mpr ⟨t, ht, hbad⟩ with ⟨e, he⟩
        rw [he] at hma
        exact absurd hma (by simp)

theorem mkE_ok_valid {d : PyDef} {s : List Nat} (h : mkE d = .ok s) : ValidPcs s := by
  cases d with
  | nonIterable => exact absurd h (by simp [mkE])
  | ofString cs =>
    cases hma : moderateAll (cs.map PyToken.ch) with
    | error e =>
      rw [mkE, hma] at h
      exact absurd h (by simp)
    | ok ns =>
      rw [mkE, hma] at h
      simp only [Except.ok.injEq] at h
      subst h
      exact pydedup_valid (moderateAll_ok_lt hma)
  | ofList l =>
    cases hma : moderateAll l with
    | error e =>
      rw [mkE, hma] at h
      exact absurd h (by simp)
    | ok ns =>
      rw [mkE, hma] at h
      simp only [Except.ok.injEq] at h
      subst h
      exact pydedup_valid (moderateAll_ok_lt hma)

theorem complement_valid (s : List Nat) : ValidPcs (complement s) :=
  mkNat_valid _

theorem reversePc_valid (s : List Nat) : ValidPcs (reversePc s) :=
  mkNat_valid _

theorem shift_valid (s : List Nat) (n : Int) : ValidPcs (shift s n) := by
  unfold shift
  by_cases h : s.length > 1
  · rw [if_pos h]
    exact mkNat_valid _
  · rw [if_neg h]
    exact mkNat_valid _

/-! Characterizations of the search results (`OpSet` branches). -/

theorem same_prime_iff {a b : List Nat} : same_prime a b = true ↔ prime a = prime b := by
  unfold same_prime exact_equality
  simp

theorem mem_opSet_Tn {rel : List Nat → List Nat → Bool} {a b : List Nat} {n : Nat} :
    n ∈ (opSet rel a b).Tn ↔ n < 12 ∧ rel (transpose a (Int.ofNat n)) b = true := by
  unfold opSet
  simp [List.mem_filter, List.mem_range]

theorem mem_opSet_TnI {rel : List Nat → List Nat → Bool} {a b : List Nat} {n : Nat} :
    n ∈ (opSet rel a b).TnI ↔ n < 12 ∧ rel (TnI a (Int.ofNat n)) b = true := by
  unfold opSet
  simp [List.mem_filter, List.mem_range]

theorem mem_opSetReverse_Tn {rel : List Nat → List Nat → Bool} {a b : List Nat} {n : Nat} :
    n ∈ (opSetReverse rel a b).Tn ↔ n < 12 ∧ rel a (transpose b (Int.ofNat n)) = true := by
  unfold opSetReverse
  simp [List.mem_filter, List.mem_range]

theorem mem_opSetReverse_TnI {rel : List Nat → List Nat → Bool} {a b : List Nat} {n : Nat} :
    n ∈ (opSetReverse rel a b).TnI ↔ n < 12 ∧ rel a (TnI b (Int.ofNat n)) = true := by
  unfold opSetReverse
  simp [List.mem_filter, List.mem_range]

theorem anyMatch_of_mem {r : OpSetResult} {n : Nat} (h : n ∈ r.Tn ∨ n ∈ r.TnI) :
    r.anyMatch = true := by
  unfold OpSetResult.anyMatch
  have hfalse : (r.Tn == [] && r.TnI == []) = false := by
    rcases h with h | h
    · have hne : r.Tn ≠ [] := List.ne_nil_of_mem h
      simp [hne]
    · have hne : r.TnI ≠ [] := List.ne_nil_of_mem h
      simp [hne]
  rw [hfalse]
  rfl

theorem not_both_nil_of_mem {r : OpSetResult} {n : Nat} (h : n ∈ r.Tn ∨ n ∈ r.TnI) :
    ¬(r.Tn = [] ∧ r.TnI = []) := by
  rintro ⟨h1, h2⟩
  rcases h with h | h
  · rw [h1] at h
    simp at h
  · rw [h2] at h
    simp at h

theorem opSet_sorted (rel : List Nat → List Nat → Bool) (a b : List Nat) :
    (opSet rel a b).Tn.Pairwise (· < ·) ∧ (opSet rel a b).TnI.Pairwise (· < ·) := by
  unfold opSet
  exact ⟨(List.pairwise_lt_range 12).filter (fun n => rel (transpose a (Int.ofNat n)) b),
    (List.pairwise_lt_range 12).filter (fun n => rel (TnI a (Int.ofNat n)) b)⟩

theorem opSetReverse_sorted (rel : List Nat → List Nat → Bool) (a b : List Nat) :
    (opSetReverse rel a b).Tn.Pairwise (· < ·) ∧
      (opSetReverse rel a b).TnI.Pairwise (· < ·) := by
  unfold opSetReverse
  exact ⟨(List.pairwise_lt_range 12).filter (fun n => rel a (transpose b (Int.ofNat n))),
    (List.pairwise_lt_range 12).filter (fun n => rel a (TnI b (Int.ofNat n)))⟩

theorem subset_of_iff {a x : List Nat} : subset_of a x = true ↔ x ⊆ a := by
  unfold subset_of
  simp [List.all_eq_true, List.subset_def]

theorem range_map_split {m : Nat} (hm : 1 ≤ m) (f : Nat → List Nat) :
    ((List.range m).map f).getLastD [] = f (m - 1) ∧
      ((List.range m).map f).dropLast = (List.range (m - 1)).map f := by
  obtain ⟨k, rfl⟩ : ∃ k, m = k + 1 := ⟨m - 1, by omega⟩
  rw [List.range_succ, List.map_append]
  constructor
  · rw [List.getLastD_eq_getLast?]
    simp [List.getLast?_concat]
  · rw [show (List.map f [k]) = [f k] from rfl, List.dropLast_concat]
    simp

/-! The claims. -/

/-- C1: `op_path(a, b)` returns a result with both branches empty exactly
when `prime(a)` and `prime(b)` differ as ordered sequences.  When the
prime forms are equal, the 24-way search finds at least one `n` on some
branch (so the internal `assert result.any` never fires), the `Tn`
branch holds exactly the `n` in `0..11` with `T_n(a)` equal to `b` as an
unordered set, and the `TnI` branch exactly the `n` with `T_n(I(a))`
equal to `b` as an unordered set. -/
theorem c1_op_path_fast_reject (a b : List Nat) (ha : ValidPcs a) (hb : ValidPcs b) :
    (((op_path a b).Tn = [] ∧ (op_path a b).TnI = []) ↔ prime a ≠ prime b) ∧
    (prime a = prime b →
      (op_path a b).anyMatch = true ∧
      (∀ n : Nat, n ∈ (op_path a b).Tn ↔
        n < 12 ∧ set_equality (transpose a (Int.ofNat n)) b = true) ∧
      (∀ n : Nat, n ∈ (op_path a b).TnI ↔
        n < 12 ∧ set_equality (TnI a (Int.ofNat n)) b = true)) := by
  by_cases hsp : prime a = prime b
  · have hspb : same_prime a b = true := same_prime_iff.mpr hsp
    have hop : op_path a b = opSet set_equality a b := by
      unfold op_path
      rw [if_pos hspb]
    rcases op_any_of_same_prime ha hb hsp with ⟨n, hn, hor⟩
    have hmem : n ∈ (opSet set_equality a b).Tn ∨ n ∈ (opSet set_equality a b).TnI := by
      rcases hor with h | h
      · exact Or.inl (mem_opSet_Tn.mpr ⟨hn, h⟩)
      · exact Or.inr (mem_opSet_TnI.mpr ⟨hn, h⟩)
    constructor
    · rw [hop]
      exact iff_of_false (not_both_nil_of_mem hmem) (not_not_intro hsp)
    · intro _
      rw [hop]
      exact ⟨anyMatch_of_mem hmem, fun n => mem_opSet_Tn, fun n => mem_opSet_TnI⟩
  · have hop : op_path a b = nullOpSet := by
      unfold op_path
      rw [if_neg (fun hc => hsp (same_prime_iff.mp hc))]
    constructor
    · rw [hop]
      exact iff_of_true ⟨rfl, rfl⟩ hsp
    · intro h
      exact absurd h hsp

/-- Witness for C1 at the spec's scenario 2 pair: `op_path("047", "914")`. -/
theorem c1_witness :
    ValidPcs [0, 4, 7] ∧ ValidPcs [9, 1, 4] ∧
    ((((op_path [0, 4, 7] [9, 1, 4]).Tn = [] ∧ (op_path [0, 4, 7] [9, 1, 4]).TnI = []) ↔
        prime [0, 4, 7] ≠ prime [9, 1, 4]) ∧
      (prime [0, 4, 7] = prime [9, 1, 4] →
        (op_path [0, 4, 7] [9, 1, 4]).anyMatch = true ∧
        (∀ n : Nat, n ∈ (op_path [0, 4, 7] [9, 1, 4]).Tn ↔
          n < 12 ∧ set_equality (transpose [0, 4, 7] (Int.ofNat n)) [9, 1, 4] = true) ∧
        (∀ n : Nat, n ∈ (op_path [0, 4, 7] [9, 1, 4]).TnI ↔
          n < 12 ∧ set_equality (TnI [0, 4, 7] (Int.ofNat n)) [9, 1, 4] = true))) :=
  ⟨by decide, by decide,
    c1_op_path_fast_reject [0, 4, 7] [9, 1, 4] (by decide) (by decide)⟩

/-- C2: two sets have the same prime form (as ordered sequences) exactly
when one can be produced from the other by some composition of
transpositions and/or inversions, up to unordered set equality:
`prime` is a complete canonical representative of the 24-element
transposition-and-inversion family. -/
theorem c2_prime_complete_invariant (a b : List Nat) (ha : ValidPcs a) (hb : ValidPcs b) :
    prime a = prime b ↔ ∃ c, TIReachable a c ∧ SetEq c b :=
  prime_eq_iff_reachable ha hb

/-- Witness for C2 at the C major / D major pair. -/
theorem c2_witness :
    ValidPcs [0, 4, 7] ∧ ValidPcs [2, 6, 9] ∧
      (prime [0, 4, 7] = prime [2, 6, 9] ↔
        ∃ c, TIReachable [0, 4, 7] c ∧ SetEq c [2, 6, 9]) :=
  ⟨by decide, by decide,
    c2_prime_complete_invariant [0, 4, 7] [2, 6, 9] (by decide) (by decide)⟩

/-- C3 (counterexample): for the rotation-invariant augmented triad
`048` all rotations tie on the bitmask, and `normal` keeps the popped
last rotation `shift(2) = [4, 8, 0]`, not the `shift(0)` sorted
arrangement `[0, 4, 8]` the claim requires. -/
theorem c3_counterexample :
    normal (pcs "048") = [4, 8, 0] ∧ shift (sortPc (pcs "048")) 0 = [0, 4, 8] ∧
      ([4, 8, 0] : List Nat) ≠ [0, 4, 8] :=
  ⟨by decide, by decide, by decide⟩

/-- C3 (amended): `normal` returns the first rotation attaining the
minimal zero-transposed bitmask in the order
`shift(len-1), shift(0), shift(1), ..., shift(len-2)` — the source pops
the last rotation as the initial candidate and replaces it only on a
strictly smaller bitmask. -/
theorem c3_normal_first_min (s : List Nat) (hs : ValidPcs s) (h2 : 2 ≤ s.length) :
    firstMinBy (fun r => binaryvalue (zero r))
      (shift (sortPc s) (Int.ofNat (s.length - 1)) ::
        (List.range (s.length - 1)).map (fun n => shift (sortPc s) (Int.ofNat n))) =
      some (normal s) := by
  rcases range_map_split (show 1 ≤ s.length by omega)
    (fun n => shift (sortPc s) (Int.ofNat n)) with ⟨hlast, hdrop⟩
  have hnormal : normal s =
      (((List.range s.length).map (fun n => shift (sortPc s) (Int.ofNat n))).dropLast).foldl
        (fun best arrangement =>
          if binaryvalue (zero arrangement) < binaryvalue (zero best) then arrangement
          else best)
        (((List.range s.length).map (fun n => shift (sortPc s) (Int.ofNat n))).getLastD
          []) := by
    unfold normal
    rw [if_neg (by omega)]
  rcases foldl_min_decomp (fun r => binaryvalue (zero r))
      (((List.range s.length).map (fun n => shift (sortPc s) (Int.ofNat n))).dropLast)
      (((List.range s.length).map (fun n => shift (sortPc s) (Int.ofNat n))).getLastD [])
    with ⟨pre, post, hdecomp, hpre⟩
  rw [← hnormal] at hdecomp hpre
  have hmin : ∀ x ∈ (((List.range s.length).map
        (fun n => shift (sortPc s) (Int.ofNat n))).getLastD []) ::
      ((List.range s.length).map (fun n => shift (sortPc s) (Int.ofNat n))).dropLast,
      binaryvalue (zero (normal s)) ≤ binaryvalue (zero x) := by
    intro x hx
    rw [hnormal]
    exact foldl_min_le (fun r => binaryvalue (zero r)) _ _ x hx
  rw [hlast, hdrop] at hdecomp
  rw [hlast, hdrop] at hmin
  exact firstMinBy_eq_some hdecomp hpre hmin

/-- Witness for C3 (amended) at the C major triad. -/
theorem c3_witness :
    ValidPcs [0, 4, 7] ∧ 2 ≤ ([0, 4, 7] : List Nat).length ∧
      firstMinBy (fun r => binaryvalue (zero r))
        (shift (sortPc [0, 4, 7]) (Int.ofNat (([0, 4, 7] : List Nat).length - 1)) ::
          (List.range (([0, 4, 7] : List Nat).length - 1)).map
            (fun n => shift (sortPc [0, 4, 7]) (Int.ofNat n))) =
        some (normal [0, 4, 7]) :=
  ⟨by decide, by decide, c3_normal_first_min [0, 4, 7] (by decide) (by decide)⟩

/-- C4: the reduced form is invariant under transposition by any
integer, including for rotationally symmetric sets where the normal
form is resolved by the tie-break. -/
theorem c4_reduced_transposition_invariance (x : List Nat) (hx : ValidPcs x) (n : Int) :
    reduced (transpose x n) = reduced x :=
  reduced_transpose_eq hx n

/-- Witness for C4 at the rotationally symmetric augmented triad. -/
theorem c4_witness :
    ValidPcs [0, 4, 8] ∧ reduced (transpose [0, 4, 8] 7) = reduced [0, 4, 8] :=
  ⟨by decide, c4_reduced_transposition_invariance [0, 4, 8] (by decide) 7⟩

/-- C5: entry `n` of the common-tone vector — tallied over all ordered
pairs `(x, y)` of elements, including `x = y`, as `(x + y) % 12` —
counts the pitch classes present in both the set and its `TnI(n)`
transform; consequently `symmetry` counts the `n` for which `TnI(n)`
maps the set onto itself, and `symmetry('048') = 3`. -/
theorem c5_cvec_common_tones (s : List Nat) (hs : ValidPcs s) :
    (∀ n : Nat, n < 12 →
      (cvec s).getD n 0 = (s.filter (fun e => decide (e ∈ TnI s (n : Int)))).length) ∧
    symmetry s = ((List.range 12).filter
      (fun v : Nat => set_equality (TnI s (v : Int)) s)).length ∧
    symmetry (pcs "048") = 3 :=
  ⟨fun _ hn => cvec_common hs hn, symmetry_spec hs, by decide⟩

/-- Witness for C5 at the whole-tone-ish set `[0, 2, 6]`. -/
theorem c5_witness :
    ValidPcs [0, 2, 6] ∧
    ((∀ n : Nat, n < 12 →
        (cvec [0, 2, 6]).getD n 0 =
          (([0, 2, 6] : List Nat).filter
            (fun e => decide (e ∈ TnI [0, 2, 6] (n : Int)))).length) ∧
      symmetry [0, 2, 6] = ((List.range 12).filter
        (fun v : Nat => set_equality (TnI [0, 2, 6] (v : Int)) [0, 2, 6])).length ∧
      symmetry (pcs "048") = 3) :=
  ⟨by decide, c5_cvec_common_tones [0, 2, 6] (by decide)⟩

/-- C6: `fit_in(a, b)` returns the null result when `a` is smaller than
`b`; otherwise its `Tn` branch is the ascending list of the `n` in
`0..11` with `transpose(b, n)` a subset of `a` (as unordered sets) and
its `TnI` branch the ascending list of the `n` with
`transpose(invert(b), n)` a subset of `a`; in particular
`fit_in("024579B", "047A")` yields `Tn = [7]` and `TnI = [9]`. -/
theorem c6_fit_in_subset_search (a b : List Nat) :
    (a.length < b.length → fit_in a b = nullOpSet) ∧
    (¬a.length < b.length →
      ((fit_in a b).Tn.Pairwise (· < ·) ∧
        (∀ n : Nat, n ∈ (fit_in a b).Tn ↔ n < 12 ∧ transpose b (Int.ofNat n) ⊆ a) ∧
        (fit_in a b).TnI.Pairwise (· < ·) ∧
        (∀ n : Nat, n ∈ (fit_in a b).TnI ↔ n < 12 ∧ TnI b (Int.ofNat n) ⊆ a))) ∧
    (fit_in (pcs "024579B") (pcs "047A")).Tn = [7] ∧
    (fit_in (pcs "024579B") (pcs "047A")).TnI = [9] := by
  refine ⟨?_, ?_, by decide, by decide⟩
  · intro h
    unfold fit_in
    rw [if_pos h]
  · intro h
    have hfit : fit_in a b = opSetReverse subset_of a b := by
      unfold fit_in
      rw [if_neg h]
    rw [hfit]
    refine ⟨(opSetReverse_sorted subset_of a b).1, ?_,
      (opSetReverse_sorted subset_of a b).2, ?_⟩
    · intro n
      rw [mem_opSetReverse_Tn, subset_of_iff]
    · intro n
      rw [mem_opSetReverse_TnI, subset_of_iff]

/-- Witness for C6 at a short-circuiting pair. -/
theorem c6_witness :
    (([0] : List Nat).length < ([0, 2] : List Nat).length → fit_in [0] [0, 2] = nullOpSet) ∧
    (¬([0] : List Nat).length < ([0, 2] : List Nat).length →
      ((fit_in [0] [0, 2]).Tn.Pairwise (· < ·) ∧
        (∀ n : Nat, n ∈ (fit_in [0] [0, 2]).Tn ↔
          n < 12 ∧ transpose [0, 2] (Int.ofNat n) ⊆ [0]) ∧
        (fit_in [0] [0, 2]).TnI.Pairwise (· < ·) ∧
        (∀ n : Nat, n ∈ (fit_in [0] [0, 2]).TnI ↔
          n < 12 ∧ TnI [0, 2] (Int.ofNat n) ⊆ [0]))) ∧
    (fit_in (pcs "024579B") (pcs "047A")).Tn = [7] ∧
    (fit_in (pcs "024579B") (pcs "047A")).TnI = [9] :=
  c6_fit_in_subset_search [0] [0, 2]

/-- C7 (counterexample): `prime(PcSet("0146A"))` renders as `"02368"`,
not `"013568A"` — the claimed input has five pitch classes while the
claimed output has seven, and the prime form preserves cardinality. -/
theorem c7_counterexample :
    pcs "0146A" = [0, 1, 4, 6, 10] ∧
      strPc (prime (pcs "0146A")) = "02368".toList ∧
      "02368".toList ≠ "013568A".toList :=
  ⟨by decide, by decide, by decide⟩

/-- C7 (amended): the set whose prime form renders as `"013568A"` is
the A major scale `PcSet("9B12468")` (pitch classes 9, 11, 1, 2, 4, 6,
8), the input the cited spec sentence describes. -/
theorem c7_prime_renders :
    pcs "9B12468" = [9, 11, 1, 2, 4, 6, 8] ∧
      strPc (prime (pcs "9B12468")) = "013568A".toList :=
  ⟨by decide, by decide⟩

/-- C8 (counterexample): at `s = PcSet([0])` and `n = -1/2`, the code
maps element 0 to 11 — the float `% 12` runs before `int()` truncation,
so the effective shift is `floor(-1/2) = -1` — while the claim's
truncation toward zero (`trunc(-1/2) = 0`) would give 0. -/
theorem c8_counterexample :
    transposeRat [0] (mkRat (-1) 2) = [11] ∧
      intOfRat (mkRat (-1) 2) = 0 ∧
      transpose [0] (intOfRat (mkRat (-1) 2)) = [0] ∧
      transposeRat [0] (mkRat (-1) 2) ≠ transpose [0] (intOfRat (mkRat (-1) 2)) := by
  have h1 : transposeRat [0] (mkRat (-1) 2) = transpose [0] ((mkRat (-1) 2).floor) :=
    transposeRat_eq_floor (by decide) _
  have h2 : (mkRat (-1) 2).floor = -1 := by decide
  rw [h1, h2]
  exact ⟨by decide, by decide, by decide, by decide⟩

/-- C8 (amended): `transpose` with a non-integer rational `n` behaves
as if `n` were replaced by `floor(n)`: each element maps to
`(e + ⌊n⌋) % 12`.  For positive `n` this coincides with truncation
toward zero; for negative non-integer `n` it does not. -/
theorem c8_transpose_rat_floor (s : List Nat) (hs : ValidPcs s) (q : Rat) :
    transposeRat s q = transpose s q.floor :=
  transposeRat_eq_floor hs q

/-- Witness for C8 (amended) at `s = [0, 3]`, `n = 5/2`. -/
theorem c8_witness :
    ValidPcs [0, 3] ∧
      transposeRat [0, 3] (mkRat 5 2) = transpose [0, 3] ((mkRat 5 2).floor) :=
  ⟨by decide, c8_transpose_rat_floor [0, 3] (by decide) (mkRat 5 2)⟩

/-- C9: construction raises a `DefinitionError` subclass exactly on a
non-iterable definition or a token that is neither convertible to an
integer nor `A`/`B`; a successful construction establishes the `PcSet`
invariant, and on a well-formed `PcSet` every other operation is total
and returns a well-formed `PcSet` — no operation other than
construction can fail. -/
theorem c9_construction_errors (d : PyDef) (s : List Nat) (hs : ValidPcs s) :
    ((∃ e, mkE d = .error e) ↔ badDef d) ∧
    (∀ s' : List Nat, mkE d = .ok s' → ValidPcs s') ∧
    ValidPcs (invert s) ∧ (∀ n : Int, ValidPcs (transpose s n)) ∧
    ValidPcs (complement s) ∧ ValidPcs (reversePc s) ∧ ValidPcs (sortPc s) ∧
    (∀ n : Int, ValidPcs (shift s n)) ∧ ValidPcs (zero s) ∧ ValidPcs (normal s) ∧
    ValidPcs (reduced s) ∧ ValidPcs (prime s) :=
  ⟨mkE_error_iff d, fun _ h => mkE_ok_valid h, invert_valid s, fun n => transpose_valid s n,
    complement_valid s, reversePc_valid s, sortPc_valid s, fun n => shift_valid s n,
    zero_valid s, normal_valid hs, reduced_valid s, prime_valid s⟩

/-- Witness for C9 at a non-iterable definition and the set `[0, 1]`. -/
theorem c9_witness :
    ValidPcs [0, 1] ∧
    (((∃ e, mkE PyDef.nonIterable = .error e) ↔ badDef PyDef.nonIterable) ∧
      (∀ s' : List Nat, mkE PyDef.nonIterable = .ok s' → ValidPcs s') ∧
      ValidPcs (invert [0, 1]) ∧ (∀ n : Int, ValidPcs (transpose [0, 1] n)) ∧
      ValidPcs (complement [0, 1]) ∧ ValidPcs (reversePc [0, 1]) ∧
      ValidPcs (sortPc [0, 1]) ∧ (∀ n : Int, ValidPcs (shift [0, 1] n)) ∧
      ValidPcs (zero [0, 1]) ∧ ValidPcs (normal [0, 1]) ∧
      ValidPcs (reduced [0, 1]) ∧ ValidPcs (prime [0, 1])) :=
  ⟨by decide, c9_construction_errors PyDef.nonIterable [0, 1] (by decide)⟩

/-- C10: for a non-empty set, both the reduced form and the prime form
are strictly ascending sequences starting at 0, so order-sensitive
equality of prime forms is a sound deduplication key. -/
theorem c10_canonical_ascending (s : List Nat) (hs : ValidPcs s) (hne : s ≠ []) :
    (reduced s).Pairwise (· < ·) ∧ (reduced s).head? = some 0 ∧
      (prime s).Pairwise (· < ·) ∧ (prime s).head? = some 0 := by
  refine ⟨reduced_pairwise hs, reduced_head hs hne, ?_, ?_⟩
  · rcases prime_reduced_or s with hp | hp <;> rw [hp]
    · exact reduced_pairwise hs
    · exact reduced_pairwise (invert_valid s)
  · have hinv_ne : invert s ≠ [] := by
      intro hc
      apply hne
      have hl := congrArg List.length hc
      rw [length_invert hs] at hl
      exact List.length_eq_zero.mp hl
    rcases prime_reduced_or s with hp | hp <;> rw [hp]
    · exact reduced_head hs hne
    · exact reduced_head (invert_valid s) hinv_ne

/-- Witness for C10 at `[3, 7]`. -/
theorem c10_witness :
    ValidPcs [3, 7] ∧ ([3, 7] : List Nat) ≠ [] ∧
      ((reduced [3, 7]).Pairwise (· < ·) ∧ (reduced [3, 7]).head? = some 0 ∧
        (prime [3, 7]).Pairwise (· < ·) ∧ (prime [3, 7]).head? = some 0) :=
  ⟨by decide, by decide, c10_canonical_ascending [3, 7] (by decide) (by decide)⟩

end Pcsets
